import Mathlib

set_option linter.unusedVariables false

/-! Verification of the tree-to-IR lowering engine of the quint parser
front end (src/quint/src/parsing/ToIrListener.ts).  The TypeScript
listener methods are embedded as state-transforming functions over an
explicit `LoweringState`; an ANTLR context object is represented by the
data the method actually reads from it.  Every stack is a Lean list
whose HEAD is the TOP of the corresponding TS array, so a TS
`stack.push(x)` is `x :: stack` and `stack.pop()` takes the head.
Source spans are not inspected by any claim, so the source map is
embedded as the list of issued identifiers in issue order. -/

/-- Operator-definition qualifiers (`OpQualifier` in quintIr). -/
inductive OpQualifier where
  | qval | qdef | qpureval | qpuredef | qaction | qrun | qtemporal | qnondet
deriving DecidableEq, Repr

/-- `QuintLambdaParameter` from quintIr: an identifier plus a name. -/
structure QuintLambdaParameter where
  id : Nat
  name : String
deriving DecidableEq, Repr

mutual

/-- Quint types (`QuintType` in quintTypes), mutual with rows.  In the
TS source the `id` field of a type is optional (the sum-type
constructor synthesis builds an `oper` type without an id), hence
`Option Nat`. -/
inductive QuintType where
  | tInt (id : Option Nat)
  | tBool (id : Option Nat)
  | tStr (id : Option Nat)
  | tVar (id : Option Nat) (name : String)
  | tConst (id : Option Nat) (name : String)
  | tSet (id : Option Nat) (elem : QuintType)
  | tList (id : Option Nat) (elem : QuintType)
  | tFun (id : Option Nat) (arg : QuintType) (res : QuintType)
  | tTup (id : Option Nat) (fields : Row)
  | tRec (id : Option Nat) (fields : Row)
  | tSum (id : Option Nat) (fields : Row)
  | tOper (id : Option Nat) (args : List QuintType) (res : QuintType)

/-- Rows (`Row` in quintTypes): empty, an open row variable, or fields
plus a tail. -/
inductive Row where
  | empty
  | rvar (name : String)
  | row (fields : List RowField) (other : Row)

/-- A single labeled row field (`RowField`). -/
inductive RowField where
  | mk (fieldName : String) (fieldType : QuintType)

end

/-- The label of a row field. -/
def RowField.fieldName : RowField → String
  | .mk n _ => n

/-- The payload type of a row field. -/
def RowField.fieldType : RowField → QuintType
  | .mk _ t => t

mutual

/-- Quint expressions (`QuintEx` in quintIr), mutual with operator
definitions because a `let` carries a `QuintOpDef`.  The extra
constructor `undef` stands for the JavaScript `undefined` value that a
non-null-asserted `pop()!` yields on an empty stack; no well-formed
walk ever produces it. -/
inductive QuintEx where
  | name (id : Nat) (n : String)
  | intL (id : Nat) (value : Int)
  | boolL (id : Nat) (value : Bool)
  | strL (id : Nat) (value : String)
  | app (id : Nat) (opcode : String) (args : List QuintEx)
  | lam (id : Nat) (params : List QuintLambdaParameter) (qualifier : OpQualifier)
      (expr : QuintEx)
  | letE (id : Nat) (opdef : QuintOpDef) (expr : QuintEx)
  | undef

/-- An operator definition (`QuintOpDef`): id, name, qualifier, body,
optional type annotation. -/
inductive QuintOpDef where
  | mk (id : Nat) (name : String) (qualifier : OpQualifier) (expr : QuintEx)
      (typeAnn : Option QuintType)

end

/-- The subset of `QuintDeclaration` built by the embedded rules.  An
assume's name is `Option String` because `exitAssume` reads it with a
non-null-asserted pop that yields `undefined` on an empty stack. -/
inductive QuintDeclaration where
  | assumeD (id : Nat) (name : Option String) (assumption : QuintEx)
  | typedefD (id : Nat) (name : String) (type : Option QuintType)
  | opdefD (d : QuintOpDef)

/-- A lowered module (`QuintModule`): id, name, declarations in source
order, optional doc string. -/
structure QuintModule where
  id : Nat
  name : String
  declarations : List QuintDeclaration
  doc : Option String

/-- Modelled from the spec: `parseErrors.ts` is not under src/.  The
spec says each structural error carries the offending node's
identifier and a message code; the two error constructors used by the
listener are modelled as tagged values. -/
inductive QuintError where
  | lowercaseTypeError (id : Nat) (name : String)
  | tooManySpreadsError (id : Nat)
deriving DecidableEq, Repr

/-- Modelled from the spec: `quintTypes.ts` is not under src/.  Per
spec section 4.4 an absent variant payload is the unit type, i.e. the
empty-record type. -/
def unitType (id : Nat) : QuintType :=
  .tRec (some id) (.row [] .empty)

/-- Modelled from the spec: `isUnitType` recognizes the unit type, the
closed empty-record type. -/
def isUnitType : QuintType → Bool
  | .tRec _ (.row [] .empty) => true
  | _ => false

/-- The TS check `name[0].match('[a-z]')`: true when the first
character is an ASCII lowercase letter. -/
def isLowerFirst (name : String) : Bool :=
  match name.data with
  | c :: _ => decide ('a' ≤ c) && decide (c ≤ 'z')
  | [] => false

/-- The regex `^_([1-9][0-9]?)$` of `exitDotCall`: an underscore
followed by one or two digits, the first nonzero.  Returns the decoded
number on a match. -/
def tupleAccessor (name : String) : Option Nat :=
  match name.data with
  | ['_', d] =>
      if decide ('1' ≤ d) && decide (d ≤ '9') then some (d.toNat - 48) else none
  | ['_', d, e] =>
      if (decide ('1' ≤ d) && decide (d ≤ '9')) &&
         (decide ('0' ≤ e) && decide (e ≤ '9')) then
        some ((d.toNat - 48) * 10 + (e.toNat - 48))
      else none
  | _ => none

/-- `getDocText`: strip the 4-character comment marker prefix and the
trailing character from each doc line and join with newlines. -/
def getDocText (docLines : List String) : String :=
  String.intercalate "\n" (docLines.map fun l => (l.drop 4).dropRight 1)

/-- The mutable state of a `ToIrListener` instance plus the id
generator.  `sourceMap` is the list of issued identifiers in issue
order; `consoleErrors` counts `console.error` calls (the module-exit
leak warning) and `debugNotes` counts `console.debug` calls (the
internal recovery notes).  Modelled from the spec: the id generator
(`idGenerator.ts`, not under src/) issues strictly increasing fresh
identifiers; it starts at 1 so that the fixed transient identifier 0
used for wrapper nodes stays out of band. -/
structure LoweringState where
  nextId : Nat
  sourceMap : List Nat
  modules : List QuintModule
  declarationStack : List QuintDeclaration
  exprStack : List QuintEx
  typeStack : List QuintType
  paramStack : List QuintLambdaParameter
  identOrHoleStack : List String
  identOrStarStack : List String
  rowStack : List Row
  variantStack : List RowField
  errors : List QuintError
  consoleErrors : Nat
  debugNotes : Nat

/-- The state of a fresh listener with a fresh id generator. -/
def initState : LoweringState :=
  { nextId := 1, sourceMap := [], modules := [], declarationStack := []
    exprStack := [], typeStack := [], paramStack := [], identOrHoleStack := []
    identOrStarStack := [], rowStack := [], variantStack := [], errors := []
    consoleErrors := 0, debugNotes := 0 }

/-- `getId`: draw a fresh identifier and record it in the source map at
the moment it is issued. -/
def getId (s : LoweringState) : Nat × LoweringState :=
  (s.nextId,
   { s with nextId := s.nextId + 1, sourceMap := s.sourceMap ++ [s.nextId] })

/-- `pushApplication`: build an application node with a fresh id and
push it on the expression stack. -/
def pushApplication (name : String) (args : List QuintEx) (s : LoweringState) :
    LoweringState :=
  let (i, s1) := getId s
  { s1 with exprStack := .app i name args :: s1.exprStack }

/-- `undefinedExpr`: the placeholder a rule synthesizes for a missing
expression, a trivial let of `true` (with a `console.debug` note). -/
def undefinedExpr (s : LoweringState) : QuintEx × LoweringState :=
  let s0 := { s with debugNotes := s.debugNotes + 1 }
  let (i1, s1) := getId s0
  let (i2, s2) := getId s1
  let (i3, s3) := getId s2
  let (i4, s4) := getId s3
  (.letE i1
     (.mk i2 "__undefinedExprGenerated" .qval (.boolL i3 true) none)
     (.name i4 "__undefinedExprGenerated"), s4)

/-- `undefinedParam`: placeholder lambda parameter. -/
def undefinedParam (s : LoweringState) : QuintLambdaParameter × LoweringState :=
  let s0 := { s with debugNotes := s.debugNotes + 1 }
  let (i, s1) := getId s0
  (⟨i, "__undefinedParam" ++ toString i⟩, s1)

/-- `undefinedType`: placeholder type variable. -/
def undefinedType (s : LoweringState) : QuintType × LoweringState :=
  let s0 := { s with debugNotes := s.debugNotes + 1 }
  let (i, s1) := getId s0
  (.tVar (some i) "undefinedType", s1)

/-- `undefinedVariant`: placeholder sum-type variant field (its own
debug note plus the one of the nested `undefinedType` call). -/
def undefinedVariant (s : LoweringState) : RowField × LoweringState :=
  let s0 := { s with debugNotes := s.debugNotes + 1 }
  let (t, s1) := undefinedType s0
  (.mk "__undefinedField" t, s1)

/-- The check `kind === 'app' && opcode === 'wrappedArgs'` of
`exitOperApp`/`exitDotCall`, returning the wrapped argument list on
success. -/
def wrappedArgsOf : QuintEx → Option (List QuintEx)
  | .app _ "wrappedArgs" args => some args
  | _ => none

/-- The `pop() ?? undefinedExpr(ctx)()` idiom: take the top expression,
or synthesize a placeholder when the stack is empty (leaving the empty
stack in place). -/
def popExprOrUndefined (s : LoweringState) : QuintEx × LoweringState :=
  match s.exprStack with
  | e :: rest => (e, { s with exprStack := rest })
  | [] => undefinedExpr s

/-- Generate `k` defaults with a stateful generator, left to right, as
`times(k, () => stack.push(defaultGen()))` does. -/
def genDefaults (gen : LoweringState → α × LoweringState) :
    Nat → LoweringState → List α × LoweringState
  | 0, s => ([], s)
  | k + 1, s =>
      let (d, s1) := gen s
      let (ds, s2) := genDefaults gen k s1
      (d :: ds, s2)

/-- `popMany(stack, n, defaultGen)`: pop the top `n` elements,
returning them in push order like `splice(-n)`; if the stack is short,
the missing elements are synthesized by the generator and appear after
the real ones.  Returns the popped elements, the remaining stack and
the state.  The generators never touch the stack being popped. -/
def popMany (stack : List α) (n : Nat) (gen : LoweringState → α × LoweringState)
    (s : LoweringState) : List α × List α × LoweringState :=
  if n = 0 then ([], stack, s)
  else if stack.length < n then
    let g := genDefaults gen (n - stack.length) s
    (stack.reverse ++ g.1, [], g.2)
  else ((stack.take n).reverse, stack.drop n, s)

/-! ## The listener exit rules

One function per embedded `exit...` method, in the order the claims
need them.  Each takes the data the TS method reads from its context
object. -/

/-- The data `exitLiteralOrId` reads from its context: exactly one of
an identifier, an integer, a Boolean or a string literal.  The integer
carries the numeric value of the digit token (underscores are stripped
lexically). -/
inductive LitCtx where
  | ident (n : String)
  | intLit (v : Nat)
  | boolLit (b : Bool)
  | strLit (v : String)

/-- `exitLiteralOrId`: push the literal or name with a fresh id. -/
def exitLiteralOrId (lit : LitCtx) (s : LoweringState) : LoweringState :=
  let (i, s1) := getId s
  match lit with
  | .ident n => { s1 with exprStack := .name i n :: s1.exprStack }
  | .intLit v => { s1 with exprStack := .intL i (Int.ofNat v) :: s1.exprStack }
  | .boolLit b => { s1 with exprStack := .boolL i b :: s1.exprStack }
  | .strLit v => { s1 with exprStack := .strL i v :: s1.exprStack }

/-- `exitArgList`: pop the `n` argument expressions and wrap them in a
transient `wrappedArgs` application carrying the fixed placeholder
identifier 0 (`id: 0n` in the source). -/
def exitArgList (n : Nat) (s : LoweringState) : LoweringState :=
  let g := popMany s.exprStack n undefinedExpr s
  { g.2.2 with exprStack := .app 0 "wrappedArgs" g.1 :: g.2.1 }

/-- `exitOperApp`: unwrap the transient argument wrapper (if the
operator has an argument list) and push the application.  If the
popped value is not a `wrappedArgs` wrapper the rule logs a debug note
and returns without pushing. -/
def exitOperApp (name : String) (hasArgs : Bool) (s : LoweringState) :
    LoweringState :=
  if hasArgs then
    let g := popExprOrUndefined s
    match wrappedArgsOf g.1 with
    | some args => pushApplication name args g.2
    | none => { g.2 with debugNotes := g.2.debugNotes + 1 }
  else
    pushApplication name [] s

/-- `exitDotCall`: pop the wrapped arguments (when an argument list is
present) and the callee.  With parentheses this is the UFCS form
`callee.f(args)`, lowered to `f(callee, args)`.  Without parentheses a
name matching `_1` .. `_99` lowers to the builtin `item` with the
decoded index, every other name to the builtin `field` with the name
as a string. -/
def exitDotCall (hasArgList : Bool) (name : String) (hasParen : Bool)
    (s : LoweringState) : LoweringState :=
  let (wrapped, s1) : Option QuintEx × LoweringState :=
    if hasArgList then
      let g := popExprOrUndefined s
      (some g.1, g.2)
    else (none, s)
  let g2 := popExprOrUndefined s1
  let callee := g2.1
  let s2 := g2.2
  if hasParen then
    match wrapped with
    | some w =>
        match wrappedArgsOf w with
        | some args => pushApplication name (callee :: args) s2
        | none => { s2 with debugNotes := s2.debugNotes + 1 }
    | none => pushApplication name [callee] s2
  else
    let (i, s3) := getId s2
    match tupleAccessor name with
    | some k => pushApplication "item" [callee, .intL i (Int.ofNat k)] s3
    | none => pushApplication "field" [callee, .strL i name] s3

/-- `exitUminus`: pop one expression and push `iuminus` of it; when
the stack is empty (`pop()` yields `undefined`) the rule does nothing
at all. -/
def exitUminus (s : LoweringState) : LoweringState :=
  match s.exprStack with
  | arg :: rest => pushApplication "iuminus" [arg] { s with exprStack := rest }
  | [] => s

/-- `exitPlusMinus`: pop two expressions (synthesizing placeholders on
underflow) and push `iadd` or `isub`. -/
def exitPlusMinus (isPlus : Bool) (s : LoweringState) : LoweringState :=
  let g := popMany s.exprStack 2 undefinedExpr s
  pushApplication (if isPlus then "iadd" else "isub") g.1
    { g.2.2 with exprStack := g.2.1 }

/-- `exitTuple`: pop the element expressions and push a `Tup`
application. -/
def exitTuple (n : Nat) (s : LoweringState) : LoweringState :=
  let g := popMany s.exprStack n undefinedExpr s
  pushApplication "Tup" g.1 { g.2.2 with exprStack := g.2.1 }

/-- `exitRecElem`: wrap a pair `field: expr` or a spread `...expr`
into a transient `Tup` carrying the fixed placeholder identifier 0, to
be unwrapped by `exitRecord`.  The expression is read with a
non-null-asserted `pop()!`. -/
def exitRecElem (simpleId : Option String) (s : LoweringState) : LoweringState :=
  let expr := s.exprStack.headD .undef
  let s1 := { s with exprStack := s.exprStack.tail }
  match simpleId with
  | some n =>
      let (nid, s2) := getId s1
      { s2 with exprStack := .app 0 "Tup" [.strL nid n, expr] :: s2.exprStack }
  | none =>
      { s1 with exprStack := .app 0 "Tup" [expr] :: s1.exprStack }

/-- The spread test of `exitRecord`: an application with exactly one
argument. -/
def isSpreadElem : QuintEx → Bool
  | .app _ _ args => args.length == 1
  | _ => false

/-- The pair extraction of `exitRecord`: the argument list of an
application with exactly two arguments. -/
def pairArgs : QuintEx → Option (List QuintEx)
  | .app _ _ [a, b] => some [a, b]
  | _ => none

/-- The first argument of the first spread (`(spreads[0] as
QuintApp).args[0]`). -/
def firstSpreadBase (spreads : List QuintEx) : QuintEx :=
  match spreads with
  | .app _ _ (a :: _) :: _ => a
  | _ => (.undef)

/-- `exitRecord`: pop the element wrappers, split them into spreads
(one argument) and pairs (two arguments).  No spread: push `Rec` over
the flattened pairs.  More than one spread: record a structural error
and push nothing.  Exactly one spread: push a left fold of `with`
applications over the pairs seeded by the spread's expression. -/
def exitRecord (n : Nat) (s : LoweringState) : LoweringState :=
  let g := popMany s.exprStack n undefinedExpr s
  let elems := g.1
  let s2 := { g.2.2 with exprStack := g.2.1 }
  let spreads := elems.filter isSpreadElem
  let pairs := elems.filterMap pairArgs
  if spreads.length = 0 then
    pushApplication "Rec" pairs.flatten s2
  else if spreads.length > 1 then
    let (i, s3) := getId s2
    { s3 with errors := s3.errors ++ [.tooManySpreadsError i] }
  else
    let base := firstSpreadBase spreads
    let f := pairs.foldl
      (fun acc p =>
        (QuintEx.app (getId acc.2).1 "with" (acc.1 :: p), (getId acc.2).2))
      (base, s2)
    { f.2 with exprStack := f.1 :: f.2.exprStack }

/-- `exitIdentOrHole`: push `_` for a hole, the identifier text
otherwise. -/
def exitIdentOrHole (text : String) (s : LoweringState) : LoweringState :=
  if text = "_" then { s with identOrHoleStack := "_" :: s.identOrHoleStack }
  else { s with identOrHoleStack := text :: s.identOrHoleStack }

/-- `exitParameter`: pop the parameter name (defaulting to `_` on
underflow, with no id issued for the default) and push a parameter
with a fresh id. -/
def exitParameter (s : LoweringState) : LoweringState :=
  let (name, s1) : String × LoweringState :=
    match s.identOrHoleStack with
    | n :: rest => (n, { s with identOrHoleStack := rest })
    | [] => ("_", s)
  let (i, s2) := getId s1
  { s2 with paramStack := ⟨i, name⟩ :: s2.paramStack }

/-- The single let binding of the tuple-lambda desugaring
(`letBindingForTupleParam`): `let param = freshParam._(index+1); body`,
with a `pureval` qualifier and 1-based `item` access. -/
def letBindingForTupleParam (freshName : String) (body : QuintEx)
    (param : QuintLambdaParameter) (index : Nat) (s : LoweringState) :
    QuintEx × LoweringState :=
  let (lid, s1) := getId s
  let (aid, s2) := getId s1
  let (nid, s3) := getId s2
  let (iid, s4) := getId s3
  (.letE lid
     (.mk param.id param.name .qpureval
        (.app aid "item"
           [.name nid freshName, .intL iid (Int.ofNat (index + 1))]) none)
     body, s4)

/-- `exitLambdaTupleSugar`: pop the body and the parameters, create a
fresh parameter named after a fresh id, fold the tuple-unpacking let
bindings over the parameters left to right (JS `reduce`) and push the
single-parameter lambda. -/
def exitLambdaTupleSugar (n : Nat) (s : LoweringState) : LoweringState :=
  let pe := popExprOrUndefined s
  let g := popMany pe.2.paramStack n undefinedParam pe.2
  let params := g.1
  let s2' := { g.2.2 with paramStack := g.2.1 }
  let fid := (getId s2').1
  let s3 := (getId s2').2
  let freshName := "quintTupledLambdaParam" ++ toString fid
  let fl := params.enum.foldl
    (fun acc ip => letBindingForTupleParam freshName acc.1 ip.2 ip.1 acc.2)
    (pe.1, s3)
  let lamId := (getId fl.2).1
  let s5 := (getId fl.2).2
  { s5 with
    exprStack := .lam lamId [⟨fid, freshName⟩] .qdef fl.1 :: s5.exprStack }

/-- `exitAssume`: pop the assumed expression and the name, both with
non-null-asserted `pop()!`, and push the assume declaration. -/
def exitAssume (s : LoweringState) : LoweringState :=
  let expr := s.exprStack.headD .undef
  let s1 := { s with exprStack := s.exprStack.tail }
  let name := s1.identOrHoleStack.head?
  let s2 := { s1 with identOrHoleStack := s1.identOrHoleStack.tail }
  let (i, s3) := getId s2
  { s3 with declarationStack := .assumeD i name expr :: s3.declarationStack }

/-- The data of one `match` case: `none` for a wildcard case `_ => e`,
otherwise the variant label and, when the payload binds a name, that
name. -/
abbrev CaseCtx := Option (String × Option String)

/-- The label string of a case (`_` for a wildcard). -/
def caseLabel (c : CaseCtx) : String :=
  match c with
  | some (l, _) => l
  | none => "_"

/-- The bound payload name of a case (`_` for a hole or wildcard). -/
def caseParamName (c : CaseCtx) : String :=
  match c with
  | some (_, some p) => p
  | _ => "_"

/-- `formMatchCase`: the label string and eliminator lambda of one
case; issues the label id, the lambda id, then the parameter id. -/
def formMatchCase (body : QuintEx) (c : CaseCtx) (s : LoweringState) :
    List QuintEx × LoweringState :=
  let (lid, s1) := getId s
  let (eid, s2) := getId s1
  let (pid, s3) := getId s2
  ([.strL lid (caseLabel c), .lam eid [⟨pid, caseParamName c⟩] .qdef body], s3)

/-- The fold over the zipped case bodies and case contexts of
`exitMatchSumExpr` (a JS `reduce` with list concatenation). -/
def formMatchCases : List (QuintEx × CaseCtx) → LoweringState →
    List QuintEx × LoweringState
  | [], s => ([], s)
  | (b, c) :: rest, s =>
      let f := formMatchCase b c s
      let m := formMatchCases rest f.2
      (f.1 ++ m.1, m.2)

/-- `exitMatchSumExpr`: issue the match id, pop the scrutinee plus one
body per case, and push a single `matchVariant` application of the
scrutinee followed by label/eliminator pairs for the cases in source
order. -/
def exitMatchSumExpr (cases : List CaseCtx) (s : LoweringState) :
    LoweringState :=
  let matchId := (getId s).1
  let s1 := (getId s).2
  let g := popMany s1.exprStack (cases.length + 1) undefinedExpr s1
  let exprs := g.1
  let s2' := { g.2.2 with exprStack := g.2.1 }
  let scrutinee := exprs.headD .undef
  let bodies := exprs.tail
  let fc := formMatchCases (bodies.zip cases) s2'
  { fc.2 with
    exprStack := .app matchId "matchVariant" (scrutinee :: fc.1) :: fc.2.exprStack }

/-- `exitTypeInt`: push the int type. -/
def exitTypeInt (s : LoweringState) : LoweringState :=
  let (i, s1) := getId s
  { s1 with typeStack := .tInt (some i) :: s1.typeStack }

/-- `exitTypeBool`: push the bool type. -/
def exitTypeBool (s : LoweringState) : LoweringState :=
  let (i, s1) := getId s
  { s1 with typeStack := .tBool (some i) :: s1.typeStack }

/-- `exitTypeStr`: push the str type. -/
def exitTypeStr (s : LoweringState) : LoweringState :=
  let (i, s1) := getId s
  { s1 with typeStack := .tStr (some i) :: s1.typeStack }

/-- `exitTypeConstOrVar`: a name starting with a lowercase letter is a
type variable, any other name a type constant. -/
def exitTypeConstOrVar (name : String) (s : LoweringState) : LoweringState :=
  let (i, s1) := getId s
  if isLowerFirst name then
    { s1 with typeStack := .tVar (some i) name :: s1.typeStack }
  else
    { s1 with typeStack := .tConst (some i) name :: s1.typeStack }

/-- `exitTypeSumVariant`: pop the payload type if one was parsed,
otherwise synthesize the unit type with a fresh id, and push the
labeled row field. -/
def exitTypeSumVariant (label : String) (s : LoweringState) : LoweringState :=
  match s.typeStack with
  | t :: rest =>
      { s with typeStack := rest, variantStack := .mk label t :: s.variantStack }
  | [] =>
      let (i, s1) := getId s
      { s1 with variantStack := .mk label (unitType i) :: s1.variantStack }

/-- The constructor synthesis of `exitTypeSumDef`, one operator
definition per variant field: a unit payload yields a `val` applying
`variant` to the label and the empty record, with the sum type's name
as annotation; any other payload yields a `def` whose body is a
single-parameter lambda over the mangled parameter `__<label>Param`
applying `variant` to the label and the parameter, annotated with the
operator type from the payload to the sum type's name. -/
def genConstructors (typeName : QuintType) :
    List RowField → LoweringState → List QuintOpDef × LoweringState
  | [], s => ([], s)
  | .mk label ft :: fs, s =>
      let paramName := "__" ++ label ++ "Param"
      let (lid, s1) := getId s
      let (c, s5) : QuintOpDef × LoweringState :=
        if isUnitType ft then
          let (uid, s2) := getId s1
          let (aid, s3) := getId s2
          let (did, s4) := getId s3
          (.mk did label .qval
             (.app aid "variant" [.strL lid label, .app uid "Rec" []])
             (some typeName), s4)
        else
          let (pid, s2) := getId s1
          let (nid, s3) := getId s2
          let (aid, s4) := getId s3
          let (lamId, s4') := getId s4
          let (did, s4'') := getId s4'
          (.mk did label .qdef
             (.lam lamId [⟨pid, paramName⟩] .qdef
                (.app aid "variant" [.strL lid label, .name nid paramName]))
             (some (.tOper none [ft] typeName)), s4'')
      let g := genConstructors typeName fs s5
      (c :: g.1, g.2)

/-- `exitTypeSumDef`: issue the typedef id, pop the whole variant
stack into the row (declared order), build the typedef wrapping the
sum type, synthesize one constructor per variant (`zip` with the
parsed variant contexts truncates to their count), and push the
typedef followed by the constructors.  No check of the type name's
case is performed here. -/
def exitTypeSumDef (name : String) (nVariants : Nat) (s : LoweringState) :
    LoweringState :=
  let tid := (getId s).1
  let s1 := (getId s).2
  let g := popMany s1.variantStack s1.variantStack.length undefinedVariant s1
  let fields := g.1
  let s2' := { g.2.2 with variantStack := g.2.1 }
  let row : Row := .row fields .empty
  let typeName : QuintType := .tConst (some tid) name
  let tdef : QuintDeclaration := .typedefD tid name (some (.tSum (some tid) row))
  let gc := genConstructors typeName (fields.take nVariants) s2'
  { gc.2 with declarationStack :=
      (gc.1.map QuintDeclaration.opdefD).reverse ++ tdef :: gc.2.declarationStack }

/-- `exitTypeAbstractDef`: issue the id, record a lowercase-type-name
error when the name starts lowercase, and push the typedef
regardless. -/
def exitTypeAbstractDef (name : String) (s : LoweringState) : LoweringState :=
  let (i, s1) := getId s
  let s2 :=
    if isLowerFirst name then
      { s1 with errors := s1.errors ++ [.lowercaseTypeError i name] }
    else s1
  { s2 with declarationStack := .typedefD i name none :: s2.declarationStack }

/-- `exitTypeAliasDef`: pop the aliased type (possibly absent), issue
the id, record a lowercase-type-name error when the name starts
lowercase, and push the typedef regardless. -/
def exitTypeAliasDef (name : String) (s : LoweringState) : LoweringState :=
  let (t, s1) : Option QuintType × LoweringState :=
    match s.typeStack with
    | t :: rest => (some t, { s with typeStack := rest })
    | [] => (none, s)
  let (i, s2) := getId s1
  let s3 :=
    if isLowerFirst name then
      { s2 with errors := s2.errors ++ [.lowercaseTypeError i name] }
    else s2
  { s3 with declarationStack := .typedefD i name t :: s3.declarationStack }

/-- `exitModule`: warn on the console when the expression, imported
name, row or variant stack still holds elements; build the module from
the declaration stack (source order) with the optional doc comment;
reset only the declaration stack. -/
def exitModule (name : String) (docLines : List String) (s : LoweringState) :
    LoweringState :=
  let warn :=
    !s.exprStack.isEmpty || !s.identOrStarStack.isEmpty ||
    !s.rowStack.isEmpty || !s.variantStack.isEmpty
  let s0 := if warn then { s with consoleErrors := s.consoleErrors + 1 } else s
  let (mid, s1) := getId s0
  let doc := getDocText docLines
  let m : QuintModule :=
    if doc ≠ "" then ⟨mid, name, s1.declarationStack.reverse, some doc⟩
    else ⟨mid, name, s1.declarationStack.reverse, none⟩
  { s1 with declarationStack := [], modules := s1.modules ++ [m] }

/-! ## Rule events and tree walks

A lowering run is the fold of `step` over the list of rule invocations
the ANTLR walker fires, bottom-up and left-to-right.  The `events...`
functions produce that list from a parse tree. -/

/-- One rule invocation, carrying its context data. -/
inductive Rule where
  | rLit (l : LitCtx)
  | rArgList (n : Nat)
  | rOperApp (name : String) (hasArgs : Bool)
  | rDotCall (hasArgList : Bool) (name : String) (hasParen : Bool)
  | rUminus
  | rPlusMinus (isPlus : Bool)
  | rTuple (n : Nat)
  | rRecElem (field : Option String)
  | rRecord (n : Nat)
  | rIdentOrHole (text : String)
  | rParameter
  | rLambdaTupleSugar (n : Nat)
  | rAssume
  | rMatchSum (cases : List CaseCtx)
  | rTypeInt
  | rTypeBool
  | rTypeStr
  | rTypeConstOrVar (name : String)
  | rTypeSumVariant (label : String)
  | rTypeSumDef (name : String) (nVariants : Nat)
  | rTypeAbstractDef (name : String)
  | rTypeAliasDef (name : String)
  | rModule (name : String) (docLines : List String)

/-- Dispatch one rule invocation. -/
def step (r : Rule) (s : LoweringState) : LoweringState :=
  match r with
  | .rLit l => exitLiteralOrId l s
  | .rArgList n => exitArgList n s
  | .rOperApp name hasArgs => exitOperApp name hasArgs s
  | .rDotCall hasArgList name hasParen => exitDotCall hasArgList name hasParen s
  | .rUminus => exitUminus s
  | .rPlusMinus isPlus => exitPlusMinus isPlus s
  | .rTuple n => exitTuple n s
  | .rRecElem field => exitRecElem field s
  | .rRecord n => exitRecord n s
  | .rIdentOrHole text => exitIdentOrHole text s
  | .rParameter => exitParameter s
  | .rLambdaTupleSugar n => exitLambdaTupleSugar n s
  | .rAssume => exitAssume s
  | .rMatchSum cases => exitMatchSumExpr cases s
  | .rTypeInt => exitTypeInt s
  | .rTypeBool => exitTypeBool s
  | .rTypeStr => exitTypeStr s
  | .rTypeConstOrVar name => exitTypeConstOrVar name s
  | .rTypeSumVariant label => exitTypeSumVariant label s
  | .rTypeSumDef name nVariants => exitTypeSumDef name nVariants s
  | .rTypeAbstractDef name => exitTypeAbstractDef name s
  | .rTypeAliasDef name => exitTypeAliasDef name s
  | .rModule name docLines => exitModule name docLines s

/-- Run a list of rule invocations left to right. -/
def runRules (rs : List Rule) (s : LoweringState) : LoweringState :=
  rs.foldl (fun st r => step r st) s

/-- Parse-tree types lowered by the embedded rules: a representative
fragment of the quint grammar covering the constructs the claims are
about. -/
inductive PType where
  | ptInt
  | ptBool
  | ptStr
  | ptConstOrVar (name : String)

mutual

/-- Parse-tree expressions. -/
inductive PExpr where
  | pInt (v : Nat)
  | pBool (b : Bool)
  | pStr (v : String)
  | pName (n : String)
  | pOperApp (name : String) (args : Option (List PExpr))
  | pDotCall (callee : PExpr) (name : String) (paren : Bool)
      (args : Option (List PExpr))
  | pUminus (e : PExpr)
  | pPlusMinus (isPlus : Bool) (lhs : PExpr) (rhs : PExpr)
  | pTuple (es : List PExpr)
  | pRecord (elems : List PRecElem)
  | pLambdaTuple (params : List String) (body : PExpr)
  | pMatch (scrutinee : PExpr) (cases : List PCase)

/-- A record element: a named field or a spread. -/
inductive PRecElem where
  | pField (name : String) (value : PExpr)
  | pSpread (e : PExpr)

/-- A match case: labeled (with optional bound payload name) or
wildcard. -/
inductive PCase where
  | pCase (label : String) (param : Option String) (body : PExpr)
  | pWildcard (body : PExpr)

end

/-- The case-context data of a parsed match case. -/
def caseInfo : PCase → CaseCtx
  | .pCase l p _ => some (l, p)
  | .pWildcard _ => none

/-- Events fired when walking a type. -/
def eventsType : PType → List Rule
  | .ptInt => [.rTypeInt]
  | .ptBool => [.rTypeBool]
  | .ptStr => [.rTypeStr]
  | .ptConstOrVar n => [.rTypeConstOrVar n]

mutual

/-- Events fired when walking an expression, children first. -/
def eventsExpr : PExpr → List Rule
  | .pInt v => [.rLit (.intLit v)]
  | .pBool b => [.rLit (.boolLit b)]
  | .pStr v => [.rLit (.strLit v)]
  | .pName n => [.rLit (.ident n)]
  | .pOperApp name none => [.rOperApp name false]
  | .pOperApp name (some es) =>
      eventsExprs es ++ [.rArgList es.length, .rOperApp name true]
  | .pDotCall callee name paren none =>
      eventsExpr callee ++ [.rDotCall false name paren]
  | .pDotCall callee name paren (some es) =>
      eventsExpr callee ++ eventsExprs es ++
        [.rArgList es.length, .rDotCall true name paren]
  | .pUminus e => eventsExpr e ++ [.rUminus]
  | .pPlusMinus isPlus lhs rhs =>
      eventsExpr lhs ++ eventsExpr rhs ++ [.rPlusMinus isPlus]
  | .pTuple es => eventsExprs es ++ [.rTuple es.length]
  | .pRecord elems => eventsRecElems elems ++ [.rRecord elems.length]
  | .pLambdaTuple params body =>
      (params.map fun p => [Rule.rIdentOrHole p, .rParameter]).flatten ++
        eventsExpr body ++ [.rLambdaTupleSugar params.length]
  | .pMatch scrutinee cases =>
      eventsExpr scrutinee ++ eventsCases cases ++
        [.rMatchSum (cases.map caseInfo)]

/-- Events of a list of sibling expressions, left to right. -/
def eventsExprs : List PExpr → List Rule
  | [] => []
  | e :: es => eventsExpr e ++ eventsExprs es

/-- Events of record elements: each element's value expression then
the element rule. -/
def eventsRecElems : List PRecElem → List Rule
  | [] => []
  | .pField n v :: rest =>
      eventsExpr v ++ [.rRecElem (some n)] ++ eventsRecElems rest
  | .pSpread e :: rest =>
      eventsExpr e ++ [.rRecElem none] ++ eventsRecElems rest

/-- Events of match cases: the case bodies in order (the case itself
fires no rule of its own). -/
def eventsCases : List PCase → List Rule
  | [] => []
  | .pCase _ _ b :: rest => eventsExpr b ++ eventsCases rest
  | .pWildcard b :: rest => eventsExpr b ++ eventsCases rest

end

/-- The declarations of the walked fragment. -/
inductive PDecl where
  | pTypeAbstract (name : String)
  | pTypeAlias (name : String) (t : PType)
  | pTypeSum (name : String) (variants : List (String × Option PType))
  | pAssume (name : String) (e : PExpr)

/-- Events of one variant of a sum-type definition: the payload type
(when present) then the variant rule. -/
def eventsVariant (v : String × Option PType) : List Rule :=
  (match v.2 with
   | some t => eventsType t
   | none => []) ++ [.rTypeSumVariant v.1]

/-- Events fired when walking a declaration. -/
def eventsDecl : PDecl → List Rule
  | .pTypeAbstract name => [.rTypeAbstractDef name]
  | .pTypeAlias name t => eventsType t ++ [.rTypeAliasDef name]
  | .pTypeSum name vs =>
      (vs.map eventsVariant).flatten ++ [.rTypeSumDef name vs.length]
  | .pAssume name e => [.rIdentOrHole name] ++ eventsExpr e ++ [.rAssume]

/-- Events fired when walking a module: the declarations left to right,
then the module rule. -/
def eventsModule (name : String) (docLines : List String)
    (decls : List PDecl) : List Rule :=
  (decls.map eventsDecl).flatten ++ [.rModule name docLines]

/-! ## Identifier collection

Functions listing every identifier occurring in an IR tree, used to
state the source-map claims. -/

mutual

/-- All ids in a type (absent optional ids contribute nothing). -/
def tyIds : QuintType → List Nat
  | .tInt i => i.toList
  | .tBool i => i.toList
  | .tStr i => i.toList
  | .tVar i _ => i.toList
  | .tConst i _ => i.toList
  | .tSet i e => i.toList ++ tyIds e
  | .tList i e => i.toList ++ tyIds e
  | .tFun i a r => i.toList ++ tyIds a ++ tyIds r
  | .tTup i r => i.toList ++ rowIds r
  | .tRec i r => i.toList ++ rowIds r
  | .tSum i r => i.toList ++ rowIds r
  | .tOper i as r => i.toList ++ tysIds as ++ tyIds r

/-- All ids in a list of types. -/
def tysIds : List QuintType → List Nat
  | [] => []
  | t :: ts => tyIds t ++ tysIds ts

/-- All ids in a row. -/
def rowIds : Row → List Nat
  | .empty => []
  | .rvar _ => []
  | .row fs o => fieldsIds fs ++ rowIds o

/-- All ids in a list of row fields. -/
def fieldsIds : List RowField → List Nat
  | [] => []
  | .mk _ t :: fs => tyIds t ++ fieldsIds fs

end

/-- All ids in an optional type annotation. -/
def otyIds : Option QuintType → List Nat
  | some t => tyIds t
  | none => []

/-- All ids in a list of lambda parameters. -/
def paramsIds (ps : List QuintLambdaParameter) : List Nat :=
  ps.map QuintLambdaParameter.id

mutual

/-- All ids in an expression. -/
def exIds : QuintEx → List Nat
  | .name i _ => [i]
  | .intL i _ => [i]
  | .boolL i _ => [i]
  | .strL i _ => [i]
  | .app i _ args => i :: exsIds args
  | .lam i ps _ e => i :: (paramsIds ps ++ exIds e)
  | .letE i d e => i :: (opdIds d ++ exIds e)
  | .undef => []

/-- All ids in a list of expressions. -/
def exsIds : List QuintEx → List Nat
  | [] => []
  | e :: es => exIds e ++ exsIds es

/-- All ids in an operator definition. -/
def opdIds : QuintOpDef → List Nat
  | .mk i _ _ e t => i :: (exIds e ++ otyIds t)

end

/-- All ids in a declaration. -/
def declIds : QuintDeclaration → List Nat
  | .assumeD i _ e => i :: exIds e
  | .typedefD i _ t => i :: otyIds t
  | .opdefD d => opdIds d

/-- All ids in a list of declarations. -/
def declsIds : List QuintDeclaration → List Nat
  | [] => []
  | d :: ds => declIds d ++ declsIds ds

/-- All ids in a module tree. -/
def modIds (m : QuintModule) : List Nat :=
  m.id :: declsIds m.declarations

/-- All ids in a list of modules. -/
def modsIds : List QuintModule → List Nat
  | [] => []
  | m :: ms => modIds m ++ modsIds ms

/-- All ids in a list of rows. -/
def rowsIds : List Row → List Nat
  | [] => []
  | r :: rs => rowIds r ++ rowsIds rs

/-- Every element of `l` is below `n`. -/
def Below (n : Nat) (l : List Nat) : Prop := ∀ i ∈ l, i < n

/-- The id-generator/source-map invariant: the source map is exactly
the interval of issued identifiers, in issue order. -/
def MapShape (s : LoweringState) : Prop :=
  s.sourceMap = List.range' 1 (s.nextId - 1) ∧ 1 ≤ s.nextId

/-- Every id held in an id-carrying component of the state is below
`n`, component by component. -/
def BelowState (n : Nat) (s : LoweringState) : Prop :=
  Below n (modsIds s.modules) ∧ Below n (declsIds s.declarationStack) ∧
  Below n (exsIds s.exprStack) ∧ Below n (tysIds s.typeStack) ∧
  Below n (paramsIds s.paramStack) ∧ Below n (fieldsIds s.variantStack) ∧
  Below n (rowsIds s.rowStack)

/-- The full run invariant: the map shape plus the fact that every id
stored in the state is already issued (below the generator). -/
def RunInv (s : LoweringState) : Prop :=
  MapShape s ∧ BelowState s.nextId s

/-- The rule events of a whole run over a list of modules, each given
by name, doc lines and declarations. -/
def eventsRun (ms : List (String × List String × List PDecl)) : List Rule :=
  (ms.map fun m => eventsModule m.1 m.2.1 m.2.2).flatten


/-! ## Frame predicates and claim-statement relations -/

/-- Everything a pure id-generation step leaves untouched: all state
components except the id counter, the source map and the debug-note
count. -/
def GenFrame (s s' : LoweringState) : Prop :=
  s'.modules = s.modules ∧ s'.declarationStack = s.declarationStack ∧
  s'.exprStack = s.exprStack ∧ s'.typeStack = s.typeStack ∧
  s'.paramStack = s.paramStack ∧ s'.identOrHoleStack = s.identOrHoleStack ∧
  s'.identOrStarStack = s.identOrStarStack ∧ s'.rowStack = s.rowStack ∧
  s'.variantStack = s.variantStack ∧ s'.errors = s.errors ∧
  s'.consoleErrors = s.consoleErrors

/-- A well-behaved value generator: it only draws fresh ids (and logs),
preserves the map shape, and the generated value's ids are below the
new counter. -/
def GenOk (f : LoweringState → α × LoweringState) (idsOf : α → List Nat) :
    Prop :=
  ∀ s, GenFrame s (f s).2 ∧ s.nextId ≤ (f s).2.nextId ∧
    (MapShape s → MapShape (f s).2) ∧ Below (f s).2.nextId (idsOf (f s).1)

/-- The type pushed by walking a parse-tree type with a given fresh
id. -/
def ptDenote : PType → Nat → QuintType
  | .ptInt, i => .tInt (some i)
  | .ptBool, i => .tBool (some i)
  | .ptStr, i => .tStr (some i)
  | .ptConstOrVar n, i =>
      if isLowerFirst n then .tVar (some i) n else .tConst (some i) n

/-- A variant's payload type as lowered: the unit type when absent,
the lowered parse-tree type otherwise. -/
def PayloadLowered : Option PType → QuintType → Prop
  | none, t => ∃ j, t = unitType j
  | some pt, t => ∃ j, t = ptDenote pt j

/-- How one declared variant of `type tn = ...` shows up in the
lowered row and constructor list: the row field carries the label and
the lowered payload; a payload-free variant becomes a `val` applying
`variant` to the label and the empty record, annotated with the type's
name; a payload-carrying variant becomes a `def` whose body is a
one-parameter lambda over the mangled `__<label>Param` applying
`variant` to the label and the parameter, annotated with the operator
type from the payload to the type's name. -/
def VariantLowered (tn : String) (tid : Nat) :
    String × Option PType → RowField × QuintDeclaration → Prop
  | (label, payload), (field, decl) =>
      field.fieldName = label ∧ PayloadLowered payload field.fieldType ∧
      match payload with
      | none => ∃ lid uid aid did,
          decl = .opdefD (.mk did label .qval
            (.app aid "variant" [.strL lid label, .app uid "Rec" []])
            (some (.tConst (some tid) tn)))
      | some _ => ∃ lid pid nid aid lamId did,
          decl = .opdefD (.mk did label .qdef
            (.lam lamId [⟨pid, "__" ++ label ++ "Param"⟩] .qdef
              (.app aid "variant" [.strL lid label,
                 .name nid ("__" ++ label ++ "Param")]))
            (some (.tOper none [field.fieldType] (.tConst (some tid) tn))))

/-- The argument tail of a lowered `matchVariant` application: for
each case in order, its label string then a one-parameter eliminator
lambda binding the payload name with the case body. -/
inductive CaseArgsRel : List CaseCtx → List QuintEx → List QuintEx → Prop where
  | nil : CaseArgsRel [] [] []
  | cons (c : CaseCtx) (cs : List CaseCtx) (b : QuintEx) (bs : List QuintEx)
      (lid eid pid : Nat) (rest : List QuintEx) :
      CaseArgsRel cs bs rest →
      CaseArgsRel (c :: cs) (b :: bs)
        (.strL lid (caseLabel c) ::
           .lam eid [⟨pid, caseParamName c⟩] .qdef b :: rest)

/-- A left-to-right fold of builtin `with` applications over
name/value pairs, seeded by a base record expression. -/
inductive WithFoldRel : QuintEx → List (List QuintEx) → QuintEx → Prop where
  | nil (base : QuintEx) : WithFoldRel base [] base
  | cons (base : QuintEx) (p : List QuintEx) (ps : List (List QuintEx))
      (wid : Nat) (r : QuintEx) :
      WithFoldRel (.app wid "with" (base :: p)) ps r →
      WithFoldRel base (p :: ps) r

/-- The let-binding nest of the tuple-lambda desugaring, listed
outermost first: each level binds one original parameter to the
1-based `item` access of the fresh parameter at the parameter's
declared position, with the original body innermost. -/
inductive NestRel (freshName : String) (body : QuintEx) :
    List (Nat × QuintLambdaParameter) → QuintEx → Prop where
  | nil : NestRel freshName body [] body
  | cons (i : Nat) (p : QuintLambdaParameter) (lid aid nid iid : Nat)
      (rest : List (Nat × QuintLambdaParameter)) (r : QuintEx) :
      NestRel freshName body rest r →
      NestRel freshName body ((i, p) :: rest)
        (.letE lid (.mk p.id p.name .qpureval
           (.app aid "item"
              [.name nid freshName, .intL iid (Int.ofNat (i + 1))]) none) r)

/-- The shape of the synthesized placeholder expression: a trivial let
binding `true` under an internal name. -/
def IsUndefinedExprShape (e : QuintEx) : Prop :=
  ∃ i1 i2 i3 i4, e = .letE i1
    (.mk i2 "__undefinedExprGenerated" .qval (.boolL i3 true) none)
    (.name i4 "__undefinedExprGenerated")


/-- The explicit form of the tuple-lambda let-binding fold: processing
the indexed parameters left to right from a base id, each step wraps
the accumulated expression in the let binding for its parameter, so
the LAST parameter ends up outermost.  Ids are issued four per binding
in the order let, item application, fresh-parameter name, index
literal. -/
def tupleNest (fresh : String) :
    QuintEx → List (Nat × QuintLambdaParameter) → Nat → QuintEx
  | body, [], _ => body
  | body, (i, p) :: rest, base =>
      tupleNest fresh
        (.letE base (.mk p.id p.name .qpureval
          (.app (base + 1) "item"
            [.name (base + 2) fresh, .intL (base + 3) (Int.ofNat (i + 1))])
          none) body)
        rest (base + 4)


/-- The transient wrapper `exitRecElem` pushes for a plain
`name: value` pair, parameterized by the name-string id, the field
name and the value. -/
def recPairWrap (w : Nat × String × QuintEx) : QuintEx :=
  .app 0 "Tup" [.strL w.1 w.2.1, w.2.2]

/-- The two-element name/value argument list a pair contributes. -/
def recPairFlat (w : Nat × String × QuintEx) : List QuintEx :=
  [.strL w.1 w.2.1, w.2.2]

/-- The explicit form of the record `with` fold: each pair wraps the
accumulated record in one `with` application, ids ascending from the
base. -/
def withFold : QuintEx → List (List QuintEx) → Nat → QuintEx
  | base, [], _ => base
  | base, p :: ps, i => withFold (.app i "with" (base :: p)) ps (i + 1)

/-- The explicit form of the match-case argument generation: per case
a label string and an eliminator lambda, ids ascending three per
case in the order label, lambda, parameter. -/
def matchCaseArgs : List (QuintEx × CaseCtx) → Nat → List QuintEx
  | [], _ => []
  | (b, c) :: rest, i =>
      .strL i (caseLabel c) ::
        .lam (i + 1) [⟨i + 2, caseParamName c⟩] .qdef b ::
          matchCaseArgs rest (i + 3)


/-- How one declared variant shows up in the lowered row: the field
carries the label and the lowered payload (unit when absent). -/
def FieldLowered : String × Option PType → RowField → Prop
  | (label, payload), field =>
      field.fieldName = label ∧ PayloadLowered payload field.fieldType

/-! ## Basic lemmas -/

theorem below_nil (n : Nat) : Below n [] := by
  intro i hi
  cases hi

theorem below_append {n : Nat} {a b : List Nat} :
    Below n (a ++ b) ↔ Below n a ∧ Below n b := by
  simp [Below, List.mem_append, or_imp, forall_and]

theorem below_cons {n a : Nat} {l : List Nat} :
    Below n (a :: l) ↔ a < n ∧ Below n l := by
  simp [Below, List.mem_cons, or_imp, forall_and]

theorem below_mono {m n : Nat} {l : List Nat} (h : m ≤ n) (hb : Below m l) :
    Below n l := fun i hi => lt_of_lt_of_le (hb i hi) h

theorem popExprOrUndefined_cons {s : LoweringState} {e : QuintEx}
    {rest : List QuintEx} (h : s.exprStack = e :: rest) :
    popExprOrUndefined s = (e, { s with exprStack := rest }) := by
  unfold popExprOrUndefined
  conv_lhs => rw [h]

/-- Claim C10: a parenthesis-free dotted access `e.f` lowers to the
builtin `item` with the decoded index when the accessor name matches
`_1` .. `_99` (underscore, then one or two digits not starting with 0)
and to the builtin `field` with the name as a string literal for every
other name, including `_0`, `_100`, and names of three or more
digits. -/
theorem c10_dot_access :
    (∀ (s : LoweringState) (name : String) (callee : QuintEx)
       (rest : List QuintEx), s.exprStack = callee :: rest →
       (∀ k, tupleAccessor name = some k →
          (exitDotCall false name false s).exprStack =
            .app (s.nextId + 1) "item"
              [callee, .intL s.nextId (Int.ofNat k)] :: rest) ∧
       (tupleAccessor name = none →
          (exitDotCall false name false s).exprStack =
            .app (s.nextId + 1) "field" [callee, .strL s.nextId name] :: rest)) ∧
    (∀ k, k < 100 → 1 ≤ k → tupleAccessor ("_" ++ toString k) = some k) ∧
    tupleAccessor "_0" = none ∧ tupleAccessor "_100" = none ∧
    tupleAccessor "_007" = none ∧
    (∀ name, 4 ≤ name.length → tupleAccessor name = none) := by
  refine ⟨?_, by decide, by decide, by decide, by decide, ?_⟩
  · intro s name callee rest h
    constructor
    · intro k hk
      simp [exitDotCall, popExprOrUndefined_cons h, hk, getId,
        pushApplication]
    · intro hk
      simp [exitDotCall, popExprOrUndefined_cons h, hk, getId,
        pushApplication]
  · intro name hlen
    unfold tupleAccessor
    split
    · rename_i heq
      have : name.length = 2 := by
        simp [String.length, heq]
      omega
    · rename_i heq
      have : name.length = 3 := by
        simp [String.length, heq]
      omega
    · rfl

/-- Witness for C10 at concrete inputs: `x._2` lowers to
`item(x, 2)` and `x.foo` to `field(x, "foo")`. -/
theorem c10_dot_access_witness :
    (exitDotCall false "_2" false
        { initState with exprStack := [.name 5 "x"] }).exprStack =
      [.app 2 "item" [.name 5 "x", .intL 1 (Int.ofNat 2)]] ∧
    (exitDotCall false "foo" false
        { initState with exprStack := [.name 5 "x"] }).exprStack =
      [.app 2 "field" [.name 5 "x", .strL 1 "foo"]] :=
  ⟨(c10_dot_access.1 _ "_2" (.name 5 "x") [] rfl).1 2 (by decide),
   (c10_dot_access.1 _ "foo" (.name 5 "x") [] rfl).2 (by decide)⟩

theorem range1_snoc {n : Nat} (h : 1 ≤ n) :
    List.range' 1 (n - 1) ++ [n] = List.range' 1 (n + 1 - 1) := by
  have h2 : n + 1 - 1 = (n - 1) + 1 := by omega
  have h3 : 1 + 1 * (n - 1) = n := by omega
  rw [h2, List.range'_concat, h3]

theorem mapShape_getId {s : LoweringState} (h : MapShape s) :
    MapShape (getId s).2 := by
  obtain ⟨hm, hn⟩ := h
  refine ⟨?_, ?_⟩
  · show s.sourceMap ++ [s.nextId] = List.range' 1 (s.nextId + 1 - 1)
    rw [hm]
    exact range1_snoc hn
  · show 1 ≤ s.nextId + 1
    omega

theorem genFrame_rfl (s : LoweringState) : GenFrame s s :=
  ⟨rfl, rfl, rfl, rfl, rfl, rfl, rfl, rfl, rfl, rfl, rfl⟩

theorem genFrame_trans {a b c : LoweringState} (h1 : GenFrame a b)
    (h2 : GenFrame b c) : GenFrame a c := by
  obtain ⟨m1, d1, e1, t1, p1, ih1, is1, r1, v1, er1, c1⟩ := h1
  obtain ⟨m2, d2, e2, t2, p2, ih2, is2, r2, v2, er2, c2⟩ := h2
  exact ⟨m2.trans m1, d2.trans d1, e2.trans e1, t2.trans t1, p2.trans p1,
    ih2.trans ih1, is2.trans is1, r2.trans r1, v2.trans v1, er2.trans er1,
    c2.trans c1⟩

theorem genOk_undefinedExpr : GenOk undefinedExpr exIds := by
  intro s
  refine ⟨?_, ?_, ?_, ?_⟩
  · simp [GenFrame, undefinedExpr, getId]
  · simp [undefinedExpr, getId]
    omega
  · intro h
    exact mapShape_getId (mapShape_getId (mapShape_getId (mapShape_getId h)))
  · simp [undefinedExpr, getId, Below, exIds, opdIds, otyIds, exsIds]
    omega

theorem genOk_undefinedParam :
    GenOk undefinedParam (fun p => [p.id]) := by
  intro s
  refine ⟨?_, ?_, ?_, ?_⟩
  · simp [GenFrame, undefinedParam, getId]
  · simp [undefinedParam, getId]
  · intro h
    exact mapShape_getId h
  · simp [undefinedParam, getId, Below]

theorem genOk_undefinedType : GenOk undefinedType tyIds := by
  intro s
  refine ⟨?_, ?_, ?_, ?_⟩
  · simp [GenFrame, undefinedType, getId]
  · simp [undefinedType, getId]
  · intro h
    exact mapShape_getId h
  · simp [undefinedType, getId, Below, tyIds]

theorem genOk_undefinedVariant :
    GenOk undefinedVariant (fun f => tyIds f.fieldType) := by
  intro s
  refine ⟨?_, ?_, ?_, ?_⟩
  · simp [GenFrame, undefinedVariant, undefinedType, getId]
  · simp [undefinedVariant, undefinedType, getId]
  · intro h
    exact mapShape_getId h
  · simp [undefinedVariant, undefinedType, getId, Below, RowField.fieldType,
      tyIds]

theorem genDefaults_ok {α : Type} {gen : LoweringState → α × LoweringState}
    {idsOf : α → List Nat} (hg : GenOk gen idsOf) (k : Nat)
    (s : LoweringState) :
    GenFrame s (genDefaults gen k s).2 ∧
    s.nextId ≤ (genDefaults gen k s).2.nextId ∧
    (MapShape s → MapShape (genDefaults gen k s).2) ∧
    (∀ d ∈ (genDefaults gen k s).1, Below (genDefaults gen k s).2.nextId
      (idsOf d)) := by
  induction k generalizing s with
  | zero =>
      refine ⟨genFrame_rfl s, le_refl _, fun h => h, ?_⟩
      intro d hd
      simp [genDefaults] at hd
  | succ k ih =>
      obtain ⟨hf1, hn1, hm1, hb1⟩ := hg s
      obtain ⟨hf2, hn2, hm2, hb2⟩ := ih (gen s).2
      have heq : genDefaults gen (k + 1) s =
          ((gen s).1 :: (genDefaults gen k (gen s).2).1,
            (genDefaults gen k (gen s).2).2) := by
        simp [genDefaults]
      rw [heq]
      refine ⟨genFrame_trans hf1 hf2, le_trans hn1 hn2,
        fun h => hm2 (hm1 h), ?_⟩
      intro d hd
      rcases List.mem_cons.mp hd with h | h
      · subst h
        exact below_mono hn2 hb1
      · exact hb2 d h

theorem popMany_exact {α : Type} (front rest : List α)
    (gen : LoweringState → α × LoweringState) (s : LoweringState)
    (h0 : front ≠ []) :
    popMany (front.reverse ++ rest) front.length gen s = (front, rest, s) := by
  unfold popMany
  rw [if_neg (fun h => h0 (List.length_eq_zero.mp h)), if_neg (by simp)]
  rw [List.take_left' (by simp), List.drop_left' (by simp),
    List.reverse_reverse]

theorem popMany_ok {α : Type} {gen : LoweringState → α × LoweringState}
    {idsOf : α → List Nat} (hg : GenOk gen idsOf) (stack : List α) (n : Nat)
    (s : LoweringState) :
    GenFrame s (popMany stack n gen s).2.2 ∧
    s.nextId ≤ (popMany stack n gen s).2.2.nextId ∧
    (MapShape s → MapShape (popMany stack n gen s).2.2) ∧
    (∀ x ∈ (popMany stack n gen s).2.1, x ∈ stack) ∧
    (∀ x ∈ (popMany stack n gen s).1,
      x ∈ stack ∨ Below (popMany stack n gen s).2.2.nextId (idsOf x)) := by
  unfold popMany
  by_cases h0 : n = 0
  · simp only [h0, if_pos rfl]
    exact ⟨genFrame_rfl s, le_refl _, fun h => h, fun x hx => hx,
      fun x hx => by cases hx⟩
  · rw [if_neg h0]
    by_cases hlen : stack.length < n
    · rw [if_pos hlen]
      dsimp only
      obtain ⟨hf, hn, hm, hb⟩ := genDefaults_ok hg (n - stack.length) s
      refine ⟨hf, hn, hm, ?_, ?_⟩
      · intro x hx
        cases hx
      · intro x hx
        rcases List.mem_append.mp hx with h | h
        · exact Or.inl (List.mem_reverse.mp h)
        · exact Or.inr (hb x h)
    · rw [if_neg hlen]
      refine ⟨genFrame_rfl s, le_refl _, fun h => h, ?_, ?_⟩
      · intro x hx
        exact List.mem_of_mem_drop hx
      · intro x hx
        exact Or.inl (List.mem_of_mem_take (List.mem_reverse.mp hx))

theorem genConstructors_frame (tn : QuintType) (fs : List RowField)
    (s : LoweringState) : GenFrame s (genConstructors tn fs s).2 := by
  induction fs generalizing s with
  | nil => exact genFrame_rfl s
  | cons f fs ih =>
      obtain ⟨label, ft⟩ := f
      cases h : isUnitType ft <;>
        · simp only [genConstructors, getId, h]
          exact genFrame_trans (by simp [GenFrame]) (ih _)

/-- Claim C5 counterexample: with a nonempty type stack (and every
other stack empty) completing a module neither flags a warning nor
resets the type stack, contradicting the claim that any unconsumed
category stack is flagged and that all stacks are reset. -/
theorem c5_counterexample :
    (exitModule "m" []
        { initState with typeStack := [QuintType.tInt none] }).consoleErrors
      = 0 ∧
    (exitModule "m" []
        { initState with typeStack := [QuintType.tInt none] }).typeStack
      = [QuintType.tInt none] := ⟨rfl, rfl⟩

/-- Claim C5, amended: completing a module flags the console warning
exactly when one of the expression, imported-name, row or
variant-field stacks is nonempty (the type, parameter and
bare-identifier stacks are not checked); only the declaration stack is
reset, every other stack is left untouched; a module is appended
regardless. -/
theorem c5_module_exit (s : LoweringState) (name : String)
    (docLines : List String) :
    (exitModule name docLines s).consoleErrors =
      (if s.exprStack.isEmpty && s.identOrStarStack.isEmpty &&
          s.rowStack.isEmpty && s.variantStack.isEmpty
        then s.consoleErrors else s.consoleErrors + 1) ∧
    (exitModule name docLines s).declarationStack = [] ∧
    (exitModule name docLines s).exprStack = s.exprStack ∧
    (exitModule name docLines s).typeStack = s.typeStack ∧
    (exitModule name docLines s).paramStack = s.paramStack ∧
    (exitModule name docLines s).identOrHoleStack = s.identOrHoleStack ∧
    (exitModule name docLines s).identOrStarStack = s.identOrStarStack ∧
    (exitModule name docLines s).rowStack = s.rowStack ∧
    (exitModule name docLines s).variantStack = s.variantStack ∧
    (exitModule name docLines s).modules.length = s.modules.length + 1 := by
  cases h1 : s.exprStack.isEmpty <;> cases h2 : s.identOrStarStack.isEmpty <;>
    cases h3 : s.rowStack.isEmpty <;> cases h4 : s.variantStack.isEmpty <;>
      simp [exitModule, getId, h1, h2, h3, h4]

/-- Claim C1 counterexample: lowering the record literal
`...r, ...s, x: 1` (three elements, two of them spreads) reports the
structural error but pushes no lowered expression at all — the
expression stack is empty afterwards, so no result expression is
produced. -/
theorem c1_counterexample :
    (exitRecord 3 { initState with exprStack :=
        [.app 0 "Tup" [.strL 3 "x", .intL 4 1],
         .app 0 "Tup" [.name 2 "s"],
         .app 0 "Tup" [.name 1 "r"]] }).errors =
      [.tooManySpreadsError 1] ∧
    (exitRecord 3 { initState with exprStack :=
        [.app 0 "Tup" [.strL 3 "x", .intL 4 1],
         .app 0 "Tup" [.name 2 "s"],
         .app 0 "Tup" [.name 1 "r"]] }).exprStack = [] := ⟨rfl, rfl⟩

/-- Claim C1, amended: for a record literal whose elements contain
more than one spread, lowering appends exactly one
too-many-spreads structural error and pushes no lowered expression
(the popped elements are simply dropped; enclosing constructs recover
later through placeholder synthesis). -/
theorem c1_multi_spread (s : LoweringState) (elems rest : List QuintEx)
    (hstack : s.exprStack = elems.reverse ++ rest)
    (hspread : 2 ≤ (elems.filter isSpreadElem).length) :
    (exitRecord elems.length s).errors =
      s.errors ++ [.tooManySpreadsError s.nextId] ∧
    (exitRecord elems.length s).exprStack = rest ∧
    (exitRecord elems.length s).nextId = s.nextId + 1 := by
  have hne : elems ≠ [] := by
    intro h
    subst h
    simp at hspread
  have hpop := popMany_exact elems rest undefinedExpr s hne
  unfold exitRecord
  rw [hstack, hpop]
  dsimp only
  rw [if_neg (by omega), if_pos (by omega)]
  simp [getId]

/-- Claim C4 counterexample: a sum-type definition with a
lowercase-initial name raises no structural diagnostic at all, though
the claim requires exactly one lowercase-type-name error for sum
typedefs as well. -/
theorem c4_counterexample :
    (runRules (eventsDecl (.pTypeSum "mySum" [("A", none)]))
        initState).errors = [] ∧
    isLowerFirst "mySum" = true := ⟨rfl, rfl⟩

/-- Claim C4, amended: plain and alias typedefs with a
lowercase-initial name append exactly one lowercase-type-name error
and still push the typedef; a sum typedef performs no case check at
all — its error list is unchanged — while still pushing the typedef
(followed by the synthesized constructors). -/
theorem c4_lowercase_check :
    (∀ (s : LoweringState) (name : String), isLowerFirst name = true →
       (exitTypeAbstractDef name s).errors =
         s.errors ++ [.lowercaseTypeError s.nextId name] ∧
       (exitTypeAbstractDef name s).declarationStack =
         .typedefD s.nextId name none :: s.declarationStack) ∧
    (∀ (s : LoweringState) (name : String), isLowerFirst name = true →
       (exitTypeAliasDef name s).errors =
         s.errors ++ [.lowercaseTypeError s.nextId name] ∧
       (exitTypeAliasDef name s).declarationStack =
         .typedefD s.nextId name s.typeStack.head? :: s.declarationStack) ∧
    (∀ (s : LoweringState) (name : String) (nv : Nat),
       isLowerFirst name = true →
       (exitTypeSumDef name nv s).errors = s.errors ∧
       ∃ ctors t, (exitTypeSumDef name nv s).declarationStack =
         ctors ++ .typedefD s.nextId name t :: s.declarationStack) := by
  refine ⟨?_, ?_, ?_⟩
  · intro s name h
    constructor <;> simp [exitTypeAbstractDef, getId, h]
  · intro s name h
    cases hts : s.typeStack with
    | nil => constructor <;> simp [exitTypeAliasDef, getId, h, hts]
    | cons t ts => constructor <;> simp [exitTypeAliasDef, getId, h, hts]
  · intro s name nv h
    unfold exitTypeSumDef
    dsimp only
    refine ⟨?_, ?_⟩
    · rw [(genConstructors_frame _ _ _).2.2.2.2.2.2.2.2.2.1]
      dsimp only
      rw [(popMany_ok genOk_undefinedVariant _ _ _).1.2.2.2.2.2.2.2.2.2.1]
      rfl
    · simp only [(genConstructors_frame _ _ _).2.1]
      simp only [(popMany_ok genOk_undefinedVariant _ _ _).1.2.1]
      exact ⟨_, _, rfl⟩

/-- Witness for C1's amended theorem at the record `...r, ...s, x: 1`. -/
theorem c1_multi_spread_witness :
    (exitRecord 3 { initState with exprStack :=
        [.app 0 "Tup" [.strL 13 "x", .intL 14 1],
         .app 0 "Tup" [.name 12 "s"],
         .app 0 "Tup" [.name 11 "r"]] }).errors =
      [.tooManySpreadsError 1] ∧
    (exitRecord 3 { initState with exprStack :=
        [.app 0 "Tup" [.strL 13 "x", .intL 14 1],
         .app 0 "Tup" [.name 12 "s"],
         .app 0 "Tup" [.name 11 "r"]] }).exprStack = [] ∧
    (exitRecord 3 { initState with exprStack :=
        [.app 0 "Tup" [.strL 13 "x", .intL 14 1],
         .app 0 "Tup" [.name 12 "s"],
         .app 0 "Tup" [.name 11 "r"]] }).nextId = 2 :=
  c1_multi_spread _
    [.app 0 "Tup" [.name 11 "r"], .app 0 "Tup" [.name 12 "s"],
     .app 0 "Tup" [.strL 13 "x", .intL 14 1]] [] rfl (by decide)

/-- Witness for C4's amended theorem: `type myType` raises the error
and still emits the typedef; `type mySum = ...` raises nothing. -/
theorem c4_lowercase_check_witness :
    ((exitTypeAbstractDef "myType" initState).errors =
        [.lowercaseTypeError 1 "myType"] ∧
      (exitTypeAbstractDef "myType" initState).declarationStack =
        [.typedefD 1 "myType" none]) ∧
    ((exitTypeSumDef "mySum" 0 initState).errors = [] ∧
      ∃ ctors t, (exitTypeSumDef "mySum" 0 initState).declarationStack =
        ctors ++ [.typedefD 1 "mySum" t]) :=
  ⟨c4_lowercase_check.1 initState "myType" (by decide),
   c4_lowercase_check.2.2 initState "mySum" 0 (by decide)⟩

/-- Claim C6 counterexample: `exitUminus` on an empty expression
stack is a no-op — no placeholder is synthesized, no debug note is
logged, and no result is pushed, so the claim's universal recovery
policy fails for the unary-minus rule. -/
theorem c6_counterexample :
    exitUminus initState = initState ∧ initState.exprStack = [] :=
  ⟨rfl, rfl⟩

/-- Claim C6, amended: rules consuming expressions through `popMany`
(such as binary plus) synthesize placeholder expressions on underflow,
log debug notes, surface no user-visible error, and still push their
result; but `exitUminus` on an empty stack does nothing at all, and
`exitAssume`/`exitRecElem` embed the undefined popped value itself
instead of a synthesized placeholder. -/
theorem c6_underflow_recovery :
    (∀ s : LoweringState, s.exprStack = [] → exitUminus s = s) ∧
    (∀ s : LoweringState, s.exprStack = [] →
       ∃ e1 e2, (exitPlusMinus true s).exprStack =
           [.app (s.nextId + 8) "iadd" [e1, e2]] ∧
         IsUndefinedExprShape e1 ∧ IsUndefinedExprShape e2 ∧
         (exitPlusMinus true s).errors = s.errors ∧
         (exitPlusMinus true s).debugNotes = s.debugNotes + 2) ∧
    (∀ s : LoweringState, s.exprStack = [] → s.identOrHoleStack = [] →
       (exitAssume s).declarationStack =
         .assumeD s.nextId none .undef :: s.declarationStack ∧
       (exitAssume s).errors = s.errors) ∧
    (∀ s : LoweringState, s.exprStack = [] →
       (exitRecElem none s).exprStack = [.app 0 "Tup" [.undef]] ∧
       (exitRecElem none s).errors = s.errors) := by
  refine ⟨?_, ?_, ?_, ?_⟩
  · intro s h
    simp [exitUminus, h]
  · intro s h
    refine ⟨.letE s.nextId
        (.mk (s.nextId + 1) "__undefinedExprGenerated" .qval
          (.boolL (s.nextId + 2) true) none)
        (.name (s.nextId + 3) "__undefinedExprGenerated"),
      .letE (s.nextId + 4)
        (.mk (s.nextId + 5) "__undefinedExprGenerated" .qval
          (.boolL (s.nextId + 6) true) none)
        (.name (s.nextId + 7) "__undefinedExprGenerated"), ?_, ?_, ?_, ?_, ?_⟩
    · simp only [exitPlusMinus, h, popMany, genDefaults, undefinedExpr, getId,
        pushApplication, if_true]
      norm_num
    · exact ⟨_, _, _, _, rfl⟩
    · exact ⟨_, _, _, _, rfl⟩
    · simp [exitPlusMinus, h, popMany, genDefaults, undefinedExpr, getId,
        pushApplication]
    · simp [exitPlusMinus, h, popMany, genDefaults, undefinedExpr, getId,
        pushApplication]
  · intro s h1 h2
    constructor <;> simp [exitAssume, h1, h2, getId]
  · intro s h
    constructor <;> simp [exitRecElem, h]

/-- Witness for C6's amended theorem at the fresh listener state. -/
theorem c6_underflow_recovery_witness :
    exitUminus initState = initState ∧
    (∃ e1 e2, (exitPlusMinus true initState).exprStack =
        [.app 9 "iadd" [e1, e2]] ∧
      IsUndefinedExprShape e1 ∧ IsUndefinedExprShape e2 ∧
      (exitPlusMinus true initState).errors = [] ∧
      (exitPlusMinus true initState).debugNotes = 2) ∧
    (exitAssume initState).declarationStack = [.assumeD 1 none .undef] ∧
    (exitRecElem none initState).exprStack = [.app 0 "Tup" [.undef]] :=
  ⟨c6_underflow_recovery.1 initState rfl,
   c6_underflow_recovery.2.1 initState rfl,
   (c6_underflow_recovery.2.2.1 initState rfl rfl).1,
   (c6_underflow_recovery.2.2.2 initState rfl).1⟩

theorem letBinding_frame (freshName : String) (cur : QuintEx)
    (p : QuintLambdaParameter) (i : Nat) (s : LoweringState) :
    GenFrame s (letBindingForTupleParam freshName cur p i s).2 := by
  simp [GenFrame, letBindingForTupleParam, getId]

theorem foldl_letBindings_frame (freshName : String) :
    ∀ (l : List (Nat × QuintLambdaParameter)) (cur : QuintEx)
      (s : LoweringState),
      GenFrame s ((l.foldl
        (fun acc ip =>
          letBindingForTupleParam freshName acc.1 ip.2 ip.1 acc.2)
        (cur, s)).2) := by
  intro l
  induction l with
  | nil => intro cur s; exact genFrame_rfl s
  | cons x xs ih =>
      intro cur s
      rw [List.foldl_cons]
      exact genFrame_trans (letBinding_frame freshName cur x.2 x.1 s) (ih _ _)

theorem foldl_letBindings_nest (freshName : String) (e : QuintEx) :
    ∀ (l done : List (Nat × QuintLambdaParameter)) (cur : QuintEx)
      (s : LoweringState),
      NestRel freshName e done cur →
      NestRel freshName e (l.reverse ++ done)
        ((l.foldl
          (fun acc ip =>
            letBindingForTupleParam freshName acc.1 ip.2 ip.1 acc.2)
          (cur, s)).1) := by
  intro l
  induction l with
  | nil =>
      intro done cur s h
      simpa using h
  | cons x xs ih =>
      intro done cur s h
      rw [List.foldl_cons]
      have h2 : NestRel freshName e ((x.1, x.2) :: done)
          (letBindingForTupleParam freshName cur x.2 x.1 s).1 :=
        NestRel.cons x.1 x.2 _ _ _ _ done cur h
      have h3 := ih ((x.1, x.2) :: done)
        (letBindingForTupleParam freshName cur x.2 x.1 s).1
        (letBindingForTupleParam freshName cur x.2 x.1 s).2 h2
      simpa [List.append_assoc] using h3

theorem foldl_letBindings_eq (fresh : String) :
    ∀ (l : List (Nat × QuintLambdaParameter)) (cur : QuintEx)
      (s : LoweringState),
      (l.foldl
        (fun acc ip =>
          letBindingForTupleParam fresh acc.1 ip.2 ip.1 acc.2)
        (cur, s)).1 = tupleNest fresh cur l s.nextId := by
  intro l
  induction l with
  | nil => intro cur s; rfl
  | cons x xs ih =>
      intro cur s
      rw [List.foldl_cons]
      obtain ⟨i, p⟩ := x
      exact ih _ _

theorem foldl_letBindings_count (fresh : String) :
    ∀ (l : List (Nat × QuintLambdaParameter)) (acc : QuintEx × LoweringState),
      (l.foldl
        (fun acc ip =>
          letBindingForTupleParam fresh acc.1 ip.2 ip.1 acc.2)
        acc).2.nextId = acc.2.nextId + 4 * l.length := by
  intro l
  induction l with
  | nil => intro acc; simp
  | cons x xs ih =>
      intro acc
      rw [List.foldl_cons, ih]
      simp [letBindingForTupleParam, getId]
      omega

theorem nestRel_append_single (fresh : String) (b : QuintEx) :
    ∀ (l : List (Nat × QuintLambdaParameter)) (b' r : QuintEx)
      (i lid aid nid iid : Nat) (p : QuintLambdaParameter),
      NestRel fresh b' l r →
      b' = .letE lid (.mk p.id p.name .qpureval
        (.app aid "item"
          [.name nid fresh, .intL iid (Int.ofNat (i + 1))]) none) b →
      NestRel fresh b (l ++ [(i, p)]) r := by
  intro l
  induction l with
  | nil =>
      intro b' r i lid aid nid iid p h hb
      cases h
      rw [hb]
      exact NestRel.cons i p lid aid nid iid [] b NestRel.nil
  | cons x xs ih =>
      intro b' r i lid aid nid iid p h hb
      cases h with
      | cons i' p' lid' aid' nid' iid' rest r' h' =>
          exact NestRel.cons i' p' lid' aid' nid' iid' _ _
            (ih _ _ i lid aid nid iid p h' hb)

theorem tupleNest_nestRel (fresh : String) :
    ∀ (l : List (Nat × QuintLambdaParameter)) (base : Nat) (body : QuintEx),
      NestRel fresh body l.reverse (tupleNest fresh body l base) := by
  intro l
  induction l with
  | nil => intro base body; exact NestRel.nil
  | cons x xs ih =>
      intro base body
      obtain ⟨i, p⟩ := x
      have h := ih (base + 4)
        (.letE base (.mk p.id p.name .qpureval
          (.app (base + 1) "item"
            [.name (base + 2) fresh, .intL (base + 3) (Int.ofNat (i + 1))])
          none) body)
      have h2 := nestRel_append_single fresh body xs.reverse _ _ i base
        (base + 1) (base + 2) (base + 3) p h rfl
      simpa using h2

/-- Claim C3 counterexample: `((a, b)) => c` lowers to a lambda whose
body has the binding for `b` — the LAST parameter — outermost and the
binding for `a` innermost, refuting the claim that the binding for the
first parameter is outermost. -/
theorem c3_counterexample :
    (runRules (eventsExpr (.pLambdaTuple ["a", "b"] (.pName "c")))
        initState).exprStack =
      [.lam 13 [⟨4, "quintTupledLambdaParam4"⟩] .qdef
        (.letE 9
          (.mk 2 "b" .qpureval
            (.app 10 "item"
              [.name 11 "quintTupledLambdaParam4", .intL 12 2]) none)
          (.letE 5
            (.mk 1 "a" .qpureval
              (.app 6 "item"
                [.name 7 "quintTupledLambdaParam4", .intL 8 1]) none)
            (.name 3 "c")))] := rfl

/-- Claim C3, amended: the tuple-parameter lambda lowers to a
single-parameter lambda over the fresh parameter
`quintTupledLambdaParam<id>`; the body is the nest of let bindings
`let pi = freshParam._i` with the original body innermost and each
parameter bound via 1-based positional `item` access at its declared
position, but nested in REVERSE declaration order: the last
parameter's binding is outermost and the first parameter's binding
directly wraps the body. -/
theorem c3_tuple_lambda (s : LoweringState)
    (params : List QuintLambdaParameter) (body : QuintEx)
    (restE : List QuintEx) (restP : List QuintLambdaParameter)
    (hE : s.exprStack = body :: restE)
    (hP : s.paramStack = params.reverse ++ restP) (hne : params ≠ []) :
    ∃ fid lamId nested,
      (exitLambdaTupleSugar params.length s).exprStack =
        .lam lamId [⟨fid, "quintTupledLambdaParam" ++ toString fid⟩] .qdef
          nested :: restE ∧
      (exitLambdaTupleSugar params.length s).paramStack = restP ∧
      NestRel ("quintTupledLambdaParam" ++ toString fid) body
        params.enum.reverse nested := by
  have hpop := popMany_exact params restP undefinedParam
    { s with exprStack := restE, paramStack := params.reverse ++ restP }
    (by exact hne)
  unfold exitLambdaTupleSugar
  rw [popExprOrUndefined_cons hE]
  dsimp only
  rw [hP, hpop]
  dsimp only [getId]
  refine ⟨s.nextId, s.nextId + 1 + 4 * params.length,
    tupleNest ("quintTupledLambdaParam" ++ toString s.nextId)
      body params.enum (s.nextId + 1), ?_, ?_, ?_⟩
  · dsimp only [getId]
    rw [(foldl_letBindings_frame _ _ _ _).2.2.1]
    rw [foldl_letBindings_eq, foldl_letBindings_count]
    simp [List.enum_length]
  · dsimp only [getId]
    rw [(foldl_letBindings_frame _ _ _ _).2.2.2.2.1]
  · exact tupleNest_nestRel _ params.enum _ body

/-- Witness for C3's amended theorem at `((a, b)) => c`. -/
theorem c3_tuple_lambda_witness :
    ∃ fid lamId nested,
      (exitLambdaTupleSugar 2 { initState with nextId := 4, exprStack := [.name 3 "c"], paramStack := [⟨2, "b"⟩, ⟨1, "a"⟩] }).exprStack =
        [.lam lamId [⟨fid, "quintTupledLambdaParam" ++ toString fid⟩] .qdef
          nested] ∧
      (exitLambdaTupleSugar 2 { initState with nextId := 4, exprStack := [.name 3 "c"], paramStack := [⟨2, "b"⟩, ⟨1, "a"⟩] }).paramStack = [] ∧
      NestRel ("quintTupledLambdaParam" ++ toString fid) (.name 3 "c")
        [(1, ⟨2, "b"⟩), (0, ⟨1, "a"⟩)] nested :=
  c3_tuple_lambda { initState with nextId := 4, exprStack := [.name 3 "c"], paramStack := [⟨2, "b"⟩, ⟨1, "a"⟩] }
    [⟨1, "a"⟩, ⟨2, "b"⟩] (.name 3 "c") [] [] rfl rfl (by simp)

theorem isSpreadElem_wrap (w : Nat × String × QuintEx) :
    isSpreadElem (recPairWrap w) = false := rfl

theorem pairArgs_wrap (w : Nat × String × QuintEx) :
    pairArgs (recPairWrap w) = some (recPairFlat w) := rfl

theorem foldl_with_eq :
    ∀ (ps : List (List QuintEx)) (acc : QuintEx × LoweringState),
      (ps.foldl
        (fun acc p =>
          (QuintEx.app (getId acc.2).1 "with" (acc.1 :: p), (getId acc.2).2))
        acc).1 = withFold acc.1 ps acc.2.nextId := by
  intro ps
  induction ps with
  | nil => intro acc; rfl
  | cons p ps ih =>
      intro acc
      rw [List.foldl_cons, ih]
      rfl

theorem foldl_with_frame :
    ∀ (ps : List (List QuintEx)) (acc : QuintEx × LoweringState),
      GenFrame acc.2 ((ps.foldl
        (fun acc p =>
          (QuintEx.app (getId acc.2).1 "with" (acc.1 :: p), (getId acc.2).2))
        acc).2) := by
  intro ps
  induction ps with
  | nil => intro acc; exact genFrame_rfl _
  | cons p ps ih =>
      intro acc
      rw [List.foldl_cons]
      exact genFrame_trans (by simp [GenFrame, getId]) (ih _)

theorem withFold_rel :
    ∀ (ps : List (List QuintEx)) (base : QuintEx) (i : Nat),
      WithFoldRel base ps (withFold base ps i) := by
  intro ps
  induction ps with
  | nil => intro base i; exact WithFoldRel.nil base
  | cons p ps ih =>
      intro base i
      exact WithFoldRel.cons base p ps i _ (ih _ (i + 1))

/-- Claim C9: `exitRecElem` wraps a plain pair or a spread in a
transient `Tup`; a record with zero spreads lowers to `Rec` over the
flattened alternating name/value list; a record with exactly one
spread lowers to a left-to-right fold of `with` applications over the
plain pairs (in source order) seeded by the spread's expression, with
no diagnostic. -/
theorem c9_record_lowering :
    (∀ (s : LoweringState) (v : QuintEx) (restE : List QuintEx) (n : String),
       s.exprStack = v :: restE →
       (exitRecElem (some n) s).exprStack =
         .app 0 "Tup" [.strL s.nextId n, v] :: restE ∧
       (exitRecElem none s).exprStack = .app 0 "Tup" [v] :: restE) ∧
    (∀ (s : LoweringState) (ws : List (Nat × String × QuintEx))
       (rest : List QuintEx),
       s.exprStack = (ws.map recPairWrap).reverse ++ rest →
       (exitRecord ws.length s).exprStack =
         .app s.nextId "Rec" (ws.map recPairFlat).flatten :: rest ∧
       (exitRecord ws.length s).errors = s.errors) ∧
    (∀ (s : LoweringState) (ws1 ws2 : List (Nat × String × QuintEx))
       (b : QuintEx) (rest : List QuintEx),
       s.exprStack =
         (ws1.map recPairWrap ++ .app 0 "Tup" [b] :: ws2.map recPairWrap).reverse
           ++ rest →
       (exitRecord (ws1.length + 1 + ws2.length) s).exprStack =
         withFold b ((ws1 ++ ws2).map recPairFlat) s.nextId :: rest ∧
       WithFoldRel b ((ws1 ++ ws2).map recPairFlat)
         (withFold b ((ws1 ++ ws2).map recPairFlat) s.nextId) ∧
       (exitRecord (ws1.length + 1 + ws2.length) s).errors = s.errors) := by
  have hf : (isSpreadElem ∘ recPairWrap) = fun _ => false := by
    funext w
    exact isSpreadElem_wrap w
  have hg : (pairArgs ∘ recPairWrap) = some ∘ recPairFlat := by
    funext w
    exact pairArgs_wrap w
  refine ⟨?_, ?_, ?_⟩
  · intro s v restE n h
    constructor <;> simp [exitRecElem, h, getId]
  · intro s ws rest h
    cases ws with
    | nil =>
        simp at h
        constructor <;>
          simp [exitRecord, popMany, h, pushApplication, getId]
    | cons w ws' =>
        have hpop := popMany_exact ((w :: ws').map recPairWrap) rest
          undefinedExpr s (by simp)
        have hlen : (w :: ws').length = ((w :: ws').map recPairWrap).length :=
          (List.length_map _ _).symm
        unfold exitRecord
        rw [h, hlen, hpop]
        dsimp only
        rw [List.filter_map, List.filterMap_map, hf, hg,
          List.filterMap_eq_map]
        constructor <;> simp [pushApplication, getId]
  · intro s ws1 ws2 b rest h
    have hpop := popMany_exact
      (ws1.map recPairWrap ++ .app 0 "Tup" [b] :: ws2.map recPairWrap) rest
      undefinedExpr s (by simp)
    have hlen : ws1.length + 1 + ws2.length =
        (ws1.map recPairWrap ++
          QuintEx.app 0 "Tup" [b] :: ws2.map recPairWrap).length := by
      simp
      omega
    have hsp : (ws1.map recPairWrap ++
        QuintEx.app 0 "Tup" [b] :: ws2.map recPairWrap).filter isSpreadElem =
        [QuintEx.app 0 "Tup" [b]] := by
      rw [List.filter_append, List.filter_cons, List.filter_map,
        List.filter_map, hf]
      simp [isSpreadElem]
    have hpair : (ws1.map recPairWrap ++
        QuintEx.app 0 "Tup" [b] :: ws2.map recPairWrap).filterMap pairArgs =
        (ws1 ++ ws2).map recPairFlat := by
      simp only [List.filterMap_append, List.filterMap_cons,
        List.filterMap_map, hg, List.filterMap_eq_map, List.map_append,
        pairArgs]
    unfold exitRecord
    rw [h, hlen, hpop]
    dsimp only
    rw [hsp, hpair]
    rw [List.length_singleton, if_neg (by omega), if_neg (by omega)]
    dsimp only [firstSpreadBase]
    rw [foldl_with_eq]
    refine ⟨?_, ?_, ?_⟩
    · dsimp only
      rw [(foldl_with_frame _ _).2.2.1]
    · exact withFold_rel _ _ _
    · dsimp only
      rw [(foldl_with_frame _ _).2.2.2.2.2.2.2.2.2.1]

/-- Witness for C9 at `{ name: e1 }`, the empty record and
`{ ...r, x: 1 }` (which lowers to a single `with(r, "x", 1)`). -/
theorem c9_record_lowering_witness :
    (exitRecElem (some "name")
        { initState with exprStack := [.name 7 "e1"] }).exprStack =
      [.app 0 "Tup" [.strL 1 "name", .name 7 "e1"]] ∧
    (exitRecord 1 { initState with exprStack :=
        [.app 0 "Tup" [.strL 5 "f", .intL 6 2]] }).exprStack =
      [.app 1 "Rec" [.strL 5 "f", .intL 6 2]] ∧
    (exitRecord 2 { initState with exprStack :=
        [.app 0 "Tup" [.strL 8 "x", .intL 9 1],
         .app 0 "Tup" [.name 7 "r"]] }).exprStack =
      [.app 1 "with" [.name 7 "r", .strL 8 "x", .intL 9 1]] ∧
    WithFoldRel (.name 7 "r") [[.strL 8 "x", .intL 9 1]]
      (.app 1 "with" [.name 7 "r", .strL 8 "x", .intL 9 1]) :=
  ⟨(c9_record_lowering.1 _ (.name 7 "e1") [] "name" rfl).1,
   (c9_record_lowering.2.1 _ [(5, "f", .intL 6 2)] [] rfl).1,
   (c9_record_lowering.2.2 { initState with exprStack := [.app 0 "Tup" [.strL 8 "x", .intL 9 1], .app 0 "Tup" [.name 7 "r"]] }
     [] [(8, "x", .intL 9 1)] (.name 7 "r") [] rfl).1,
   (c9_record_lowering.2.2 { initState with exprStack := [.app 0 "Tup" [.strL 8 "x", .intL 9 1], .app 0 "Tup" [.name 7 "r"]] }
     [] [(8, "x", .intL 9 1)] (.name 7 "r") [] rfl).2.1⟩

theorem formMatchCases_eq :
    ∀ (l : List (QuintEx × CaseCtx)) (s : LoweringState),
      (formMatchCases l s).1 = matchCaseArgs l s.nextId := by
  intro l
  induction l with
  | nil => intro s; rfl
  | cons p rest ih =>
      intro s
      obtain ⟨b, c⟩ := p
      simp only [formMatchCases]
      rw [ih]
      rfl

theorem formMatchCases_frame :
    ∀ (l : List (QuintEx × CaseCtx)) (s : LoweringState),
      GenFrame s (formMatchCases l s).2 := by
  intro l
  induction l with
  | nil => intro s; exact genFrame_rfl s
  | cons p rest ih =>
      intro s
      obtain ⟨b, c⟩ := p
      simp only [formMatchCases]
      exact genFrame_trans (by simp [GenFrame, formMatchCase, getId]) (ih _)

theorem caseArgsRel_matchCaseArgs :
    ∀ (cs : List CaseCtx) (bs : List QuintEx), bs.length = cs.length →
      ∀ i, CaseArgsRel cs bs (matchCaseArgs (bs.zip cs) i) := by
  intro cs
  induction cs with
  | nil =>
      intro bs h i
      cases bs with
      | nil => exact .nil
      | cons b bs => simp at h
  | cons c cs ih =>
      intro bs h i
      cases bs with
      | nil => simp at h
      | cons b bs =>
          simp only [List.zip_cons_cons, matchCaseArgs]
          exact .cons c cs b bs i (i + 1) (i + 2) _
            (ih bs (by simpa using h) (i + 3))

/-- Claim C7: a variant-match expression lowers to one `matchVariant`
application whose arguments are the lowered scrutinee followed by, per
case in source order, the case's label string (or the string
underscore for a wildcard) and a one-parameter lambda binding the
payload name (or underscore) over the case's lowered body. -/
theorem c7_match_lowering (s : LoweringState) (cases : List CaseCtx)
    (scrutinee : QuintEx) (bodies rest : List QuintEx)
    (hlen : bodies.length = cases.length)
    (hstack : s.exprStack = (scrutinee :: bodies).reverse ++ rest) :
    (exitMatchSumExpr cases s).exprStack =
      .app s.nextId "matchVariant"
        (scrutinee :: matchCaseArgs (bodies.zip cases) (s.nextId + 1)) ::
          rest ∧
    CaseArgsRel cases bodies
      (matchCaseArgs (bodies.zip cases) (s.nextId + 1)) := by
  have hn : cases.length + 1 = (scrutinee :: bodies).length := by
    simp [hlen]
  refine ⟨?_, caseArgsRel_matchCaseArgs cases bodies hlen (s.nextId + 1)⟩
  unfold exitMatchSumExpr
  dsimp only [getId]
  rw [hstack, hn, popMany_exact (scrutinee :: bodies) rest undefinedExpr _
    (by simp)]
  dsimp only
  rw [(formMatchCases_frame _ _).2.2.1]
  rw [formMatchCases_eq]
  rfl

/-- Witness for C7 at `match v of A bound to x giving x, wildcard
giving 0` (two cases: a labeled case binding `x` and a wildcard). -/
theorem c7_match_lowering_witness :
    (exitMatchSumExpr [some ("A", some "x"), none]
        { initState with nextId := 3, exprStack := [.intL 2 0, .name 1 "x", .name 0 "v"] }).exprStack =
      [.app 3 "matchVariant"
        [.name 0 "v", .strL 4 "A", .lam 5 [⟨6, "x"⟩] .qdef (.name 1 "x"),
         .strL 7 "_", .lam 8 [⟨9, "_"⟩] .qdef (.intL 2 0)]] ∧
    CaseArgsRel [some ("A", some "x"), none] [.name 1 "x", .intL 2 0]
      [.strL 4 "A", .lam 5 [⟨6, "x"⟩] .qdef (.name 1 "x"),
       .strL 7 "_", .lam 8 [⟨9, "_"⟩] .qdef (.intL 2 0)] :=
  ⟨(c7_match_lowering { initState with nextId := 3, exprStack := [.intL 2 0, .name 1 "x", .name 0 "v"] }
      [some ("A", some "x"), none] (.name 0 "v") [.name 1 "x", .intL 2 0] []
      rfl rfl).1,
   (c7_match_lowering { initState with nextId := 3, exprStack := [.intL 2 0, .name 1 "x", .name 0 "v"] }
      [some ("A", some "x"), none] (.name 0 "v") [.name 1 "x", .intL 2 0] []
      rfl rfl).2⟩

theorem runRules_append (a b : List Rule) (s : LoweringState) :
    runRules (a ++ b) s = runRules b (runRules a s) := by
  simp [runRules, List.foldl_append]

theorem runType_eq (t : PType) (s : LoweringState) :
    runRules (eventsType t) s =
      { s with typeStack := ptDenote t s.nextId :: s.typeStack, nextId := s.nextId + 1, sourceMap := s.sourceMap ++ [s.nextId] } := by
  cases t with
  | ptInt => simp [runRules, eventsType, step, exitTypeInt, getId, ptDenote]
  | ptBool => simp [runRules, eventsType, step, exitTypeBool, getId, ptDenote]
  | ptStr => simp [runRules, eventsType, step, exitTypeStr, getId, ptDenote]
  | ptConstOrVar n =>
      by_cases h : isLowerFirst n <;>
        simp [runRules, eventsType, step, exitTypeConstOrVar, getId, ptDenote,
          h]

theorem exitTypeSumVariant_unit (label : String) (s : LoweringState)
    (h : s.typeStack = []) :
    exitTypeSumVariant label s =
      { s with variantStack := .mk label (unitType s.nextId) :: s.variantStack, nextId := s.nextId + 1, sourceMap := s.sourceMap ++ [s.nextId] } := by
  unfold exitTypeSumVariant
  conv_lhs => rw [h]
  rfl

theorem exitTypeSumVariant_payload (label : String) (t : QuintType)
    (ts : List QuintType) (s : LoweringState) (h : s.typeStack = t :: ts) :
    exitTypeSumVariant label s =
      { s with typeStack := ts, variantStack := .mk label t :: s.variantStack } := by
  unfold exitTypeSumVariant
  conv_lhs => rw [h]

theorem runVariants :
    ∀ (vs : List (String × Option PType)) (s : LoweringState),
      s.typeStack = [] →
      ∃ fields : List RowField,
        List.Forall₂ FieldLowered vs fields ∧
        (runRules (vs.map eventsVariant).flatten s).variantStack =
          fields.reverse ++ s.variantStack ∧
        (runRules (vs.map eventsVariant).flatten s).typeStack = [] ∧
        (runRules (vs.map eventsVariant).flatten s).declarationStack =
          s.declarationStack ∧
        (runRules (vs.map eventsVariant).flatten s).errors = s.errors := by
  intro vs
  induction vs with
  | nil =>
      intro s h
      exact ⟨[], .nil, by simp [runRules], by simpa [runRules] using h,
        rfl, rfl⟩
  | cons v vs ih =>
      intro s h
      obtain ⟨label, payload⟩ := v
      rw [List.map_cons, List.flatten_cons, runRules_append]
      cases payload with
      | none =>
          have hstep : runRules (eventsVariant (label, none)) s =
              exitTypeSumVariant label s := rfl
          rw [hstep, exitTypeSumVariant_unit label s h]
          obtain ⟨fields, hfa, hvar, htyp, hdecl, herr⟩ :=
            ih { s with variantStack := .mk label (unitType s.nextId) :: s.variantStack, nextId := s.nextId + 1, sourceMap := s.sourceMap ++ [s.nextId] }
              h
          refine ⟨.mk label (unitType s.nextId) :: fields,
            .cons ⟨rfl, ⟨s.nextId, rfl⟩⟩ hfa, ?_, htyp, hdecl, herr⟩
          rw [hvar]
          simp
      | some pt =>
          have hstep : runRules (eventsVariant (label, some pt)) s =
              exitTypeSumVariant label (runRules (eventsType pt) s) := by
            show runRules (eventsType pt ++ [.rTypeSumVariant label]) s = _
            rw [runRules_append]
            rfl
          rw [hstep, runType_eq pt s,
            exitTypeSumVariant_payload label (ptDenote pt s.nextId) []
              _ (by rw [h])]
          obtain ⟨fields, hfa, hvar, htyp, hdecl, herr⟩ :=
            ih { s with typeStack := [], variantStack := .mk label (ptDenote pt s.nextId) :: s.variantStack, nextId := s.nextId + 1, sourceMap := s.sourceMap ++ [s.nextId] }
              rfl
          refine ⟨.mk label (ptDenote pt s.nextId) :: fields,
            .cons ⟨rfl, ⟨s.nextId, rfl⟩⟩ hfa, ?_, htyp, hdecl, herr⟩
          rw [hvar]
          simp

theorem isUnitType_ptDenote (pt : PType) (j : Nat) :
    isUnitType (ptDenote pt j) = false := by
  cases pt with
  | ptInt => rfl
  | ptBool => rfl
  | ptStr => rfl
  | ptConstOrVar n =>
      by_cases h : isLowerFirst n <;> simp [ptDenote, isUnitType, h]

theorem genConstructors_length (tn : QuintType) :
    ∀ (fs : List RowField) (s : LoweringState),
      (genConstructors tn fs s).1.length = fs.length := by
  intro fs
  induction fs with
  | nil => intro s; rfl
  | cons f fs ih =>
      intro s
      obtain ⟨label, ft⟩ := f
      cases h : isUnitType ft <;> simp [genConstructors, h, ih]

theorem popMany_all {α : Type} (front : List α)
    (gen : LoweringState → α × LoweringState) (st : LoweringState) :
    popMany front.reverse front.reverse.length gen st = (front, [], st) := by
  rcases front with _ | ⟨a, l⟩
  · simp [popMany]
  · have h := popMany_exact (a :: l) [] gen st (by simp)
    simpa using h

theorem genConstructors_lowered (tn : String) (tid : Nat) :
    ∀ (vs : List (String × Option PType)) (fields : List RowField)
      (s : LoweringState),
      List.Forall₂ FieldLowered vs fields →
      List.Forall₂ (VariantLowered tn tid) vs
        (fields.zip
          ((genConstructors (.tConst (some tid) tn) fields s).1.map
            QuintDeclaration.opdefD)) := by
  intro vs
  induction vs with
  | nil =>
      intro fields s h
      cases h
      exact .nil
  | cons v vs ih =>
      intro fields s h
      obtain ⟨label, payload⟩ := v
      match fields, h with
      | .mk fname ftype :: fs, .cons hf hrest =>
          have hn : fname = label := hf.1
          subst hn
          cases payload with
          | none =>
              obtain ⟨j, hj⟩ := hf.2
              have hj' : ftype = unitType j := hj
              subst hj'
              simp only [genConstructors, getId, isUnitType, unitType,
                List.map_cons, List.zip_cons_cons]
              refine .cons ⟨rfl, ⟨j, rfl⟩, ?_⟩ (ih fs _ hrest)
              exact ⟨_, _, _, _, rfl⟩
          | some pt =>
              obtain ⟨j, hj⟩ := hf.2
              have hj' : ftype = ptDenote pt j := hj
              subst hj'
              simp only [genConstructors, getId, isUnitType_ptDenote,
                List.map_cons, List.zip_cons_cons, Bool.false_eq_true,
                if_false]
              refine .cons ⟨rfl, ⟨j, rfl⟩, ?_⟩ (ih fs _ hrest)
              exact ⟨_, _, _, _, _, _, rfl⟩

/-- Claim C2: a sum-type definition lowers to one typedef wrapping a
sum type over the row of labeled payloads in declared order, followed
immediately, in the same order, by exactly one constructor per
variant: a `val` named after a payload-free variant whose body applies
`variant` to the label and the empty record with the type's name as
annotation, and a `def` named after a payload-carrying variant whose
body is a one-parameter lambda (parameter mangled `__<label>Param`)
applying `variant` to the label and the parameter, annotated with the
operator type from the payload to the type's name. -/
theorem c2_sum_type_synthesis (s : LoweringState) (name : String)
    (vs : List (String × Option PType)) (hT : s.typeStack = [])
    (hV : s.variantStack = []) :
    ∃ tid fields ctors,
      (runRules (eventsDecl (.pTypeSum name vs)) s).declarationStack =
        ctors.reverse ++ .typedefD tid name
          (some (.tSum (some tid) (.row fields .empty))) ::
            s.declarationStack ∧
      fields.length = vs.length ∧ ctors.length = vs.length ∧
      List.Forall₂ (VariantLowered name tid) vs (fields.zip ctors) := by
  obtain ⟨fields, hfa, hvar, htyp, hdecl, herr⟩ := runVariants vs s hT
  have hlen : vs.length = fields.length := hfa.length_eq
  have hvar' : (runRules (vs.map eventsVariant).flatten s).variantStack =
      fields.reverse := by rw [hvar, hV, List.append_nil]
  rw [show eventsDecl (.pTypeSum name vs) =
    (vs.map eventsVariant).flatten ++ [.rTypeSumDef name vs.length] from rfl,
    runRules_append]
  generalize hs1 : runRules (vs.map eventsVariant).flatten s = s1
    at hvar' hdecl
  rw [show runRules [Rule.rTypeSumDef name vs.length] s1 =
    exitTypeSumDef name vs.length s1 from rfl]
  unfold exitTypeSumDef
  dsimp only [getId]
  rw [hvar', popMany_all fields undefinedVariant _]
  rw [show fields.take vs.length = fields from by
    rw [hlen]; exact List.take_length fields]
  simp only [(genConstructors_frame _ _ _).2.1]
  rw [hdecl]
  exact ⟨s1.nextId, fields, _, rfl, hlen.symm,
    by rw [List.length_map, genConstructors_length]; exact hlen.symm,
    genConstructors_lowered name s1.nextId vs fields _ hfa⟩

/-- Witness for C2 at `type T = A(int) | B` from a fresh state. -/
theorem c2_sum_type_synthesis_witness :
    ∃ tid fields ctors,
      (runRules (eventsDecl (.pTypeSum "T" [("A", some .ptInt), ("B", none)]))
          initState).declarationStack =
        ctors.reverse ++ .typedefD tid "T"
          (some (.tSum (some tid) (.row fields .empty))) :: [] ∧
      fields.length = 2 ∧ ctors.length = 2 ∧
      List.Forall₂ (VariantLowered "T" tid)
        [("A", some .ptInt), ("B", none)] (fields.zip ctors) :=
  c2_sum_type_synthesis initState "T" [("A", some .ptInt), ("B", none)]
    rfl rfl

/-- Claim C8 counterexample: lowering the module
`module M with assume x = record of a: 1 and b: spread r, spread s`
puts the transient identifier 0 into the output module tree (the
inner two-spread record pushes nothing, so the sibling wrapper of
field `a` is captured into the final `Rec` node), and 0 has no source
map entry — so not every identifier in the output tree is mapped. -/
theorem c8_counterexample :
    0 ∈ modsIds ((runRules (eventsModule "M" []
        [.pAssume "x" (.pRecord [.pField "a" (.pInt 1),
          .pField "b" (.pRecord [.pSpread (.pName "r"),
            .pSpread (.pName "s")])])]) initState)).modules ∧
    0 ∉ ((runRules (eventsModule "M" []
        [.pAssume "x" (.pRecord [.pField "a" (.pInt 1),
          .pField "b" (.pRecord [.pSpread (.pName "r"),
            .pSpread (.pName "s")])])]) initState)).sourceMap := by
  decide

theorem exsIds_append (a b : List QuintEx) :
    exsIds (a ++ b) = exsIds a ++ exsIds b := by
  induction a with
  | nil => rfl
  | cons x l ih => simp [exsIds, ih]

theorem declsIds_append (a b : List QuintDeclaration) :
    declsIds (a ++ b) = declsIds a ++ declsIds b := by
  induction a with
  | nil => rfl
  | cons x l ih => simp [declsIds, ih]

theorem modsIds_append (a b : List QuintModule) :
    modsIds (a ++ b) = modsIds a ++ modsIds b := by
  induction a with
  | nil => rfl
  | cons x l ih => simp [modsIds, ih]

theorem declsIds_reverse (l : List QuintDeclaration) :
    ∀ i, i ∈ declsIds l.reverse ↔ i ∈ declsIds l := by
  induction l with
  | nil => intro i; rfl
  | cons x l ih =>
      intro i
      simp [declsIds, declsIds_append, ih]
      tauto

theorem below_exsIds_iff {n : Nat} {l : List QuintEx} :
    Below n (exsIds l) ↔ ∀ e ∈ l, Below n (exIds e) := by
  induction l with
  | nil => simp [exsIds, below_nil, Below]
  | cons x l ih =>
      rw [show exsIds (x :: l) = exIds x ++ exsIds l from rfl, below_append,
        ih]
      simp

theorem below_tysIds_iff {n : Nat} {l : List QuintType} :
    Below n (tysIds l) ↔ ∀ t ∈ l, Below n (tyIds t) := by
  induction l with
  | nil => simp [tysIds, below_nil, Below]
  | cons x l ih =>
      rw [show tysIds (x :: l) = tyIds x ++ tysIds l from rfl, below_append,
        ih]
      simp

theorem below_fieldsIds_iff {n : Nat} {l : List RowField} :
    Below n (fieldsIds l) ↔ ∀ f ∈ l, Below n (tyIds f.fieldType) := by
  induction l with
  | nil => simp [fieldsIds, below_nil, Below]
  | cons x l ih =>
      obtain ⟨fn, ft⟩ := x
      rw [show fieldsIds (.mk fn ft :: l) = tyIds ft ++ fieldsIds l from rfl,
        below_append, ih]
      simp [RowField.fieldType]

theorem below_paramsIds_iff {n : Nat} {l : List QuintLambdaParameter} :
    Below n (paramsIds l) ↔ ∀ p ∈ l, p.id < n := by
  simp [paramsIds, Below]

theorem belowState_genFrame {n : Nat} {s s' : LoweringState}
    (h : GenFrame s s') (hb : BelowState n s) : BelowState n s' := by
  obtain ⟨m1, d1, e1, t1, p1, ih1, is1, r1, v1, er1, c1⟩ := h
  obtain ⟨bm, bd, be, bt, bp, bv, br⟩ := hb
  rw [BelowState, m1, d1, e1, t1, p1, v1, r1]
  exact ⟨bm, bd, be, bt, bp, bv, br⟩

theorem belowState_mono {m n : Nat} {s : LoweringState} (h : m ≤ n)
    (hb : BelowState m s) : BelowState n s := by
  obtain ⟨bm, bd, be, bt, bp, bv, br⟩ := hb
  exact ⟨below_mono h bm, below_mono h bd, below_mono h be, below_mono h bt,
    below_mono h bp, below_mono h bv, below_mono h br⟩

theorem pushApplication_inv {s : LoweringState} (name : String)
    (args : List QuintEx) (hm : MapShape s) (hb : BelowState s.nextId s)
    (ha : Below s.nextId (exsIds args)) :
    RunInv (pushApplication name args s) := by
  obtain ⟨bm, bd, be, bt, bp, bv, br⟩ := hb
  refine ⟨mapShape_getId hm, ?_, ?_, ?_, ?_, ?_, ?_, ?_⟩
  · exact below_mono (Nat.le_succ _) bm
  · exact below_mono (Nat.le_succ _) bd
  · show Below (s.nextId + 1)
      (exsIds (.app s.nextId name args :: s.exprStack))
    rw [show exsIds (QuintEx.app s.nextId name args :: s.exprStack) =
      (s.nextId :: exsIds args) ++ exsIds s.exprStack from rfl,
      below_append, below_cons]
    exact ⟨⟨Nat.lt_succ_self _, below_mono (Nat.le_succ _) ha⟩,
      below_mono (Nat.le_succ _) be⟩
  · exact below_mono (Nat.le_succ _) bt
  · exact below_mono (Nat.le_succ _) bp
  · exact below_mono (Nat.le_succ _) bv
  · exact below_mono (Nat.le_succ _) br

theorem ruleInv_literal (lit : LitCtx) {s : LoweringState} (h : RunInv s) :
    RunInv (exitLiteralOrId lit s) := by
  obtain ⟨hm, bm, bd, be, bt, bp, bv, br⟩ := h
  cases lit <;>
  · refine ⟨mapShape_getId hm, below_mono (Nat.le_succ _) bm,
      below_mono (Nat.le_succ _) bd, ?_, below_mono (Nat.le_succ _) bt,
      below_mono (Nat.le_succ _) bp, below_mono (Nat.le_succ _) bv,
      below_mono (Nat.le_succ _) br⟩
    intro i hi
    simp [exitLiteralOrId, getId, exsIds, exIds] at hi ⊢
    rcases hi with h1 | h1
    · omega
    · have := be i h1
      omega

theorem popManyExprs_inv (n : Nat) {s : LoweringState} (h : RunInv s) :
    MapShape { (popMany s.exprStack n undefinedExpr s).2.2 with exprStack := (popMany s.exprStack n undefinedExpr s).2.1 } ∧
    BelowState (popMany s.exprStack n undefinedExpr s).2.2.nextId
      { (popMany s.exprStack n undefinedExpr s).2.2 with exprStack := (popMany s.exprStack n undefinedExpr s).2.1 } ∧
    Below (popMany s.exprStack n undefinedExpr s).2.2.nextId
      (exsIds (popMany s.exprStack n undefinedExpr s).1) ∧
    s.nextId ≤ (popMany s.exprStack n undefinedExpr s).2.2.nextId := by
  obtain ⟨hm, hb⟩ := h
  have be := hb.2.2.1
  obtain ⟨hgf, hgn, hgm, hrem, hpop⟩ :=
    popMany_ok genOk_undefinedExpr s.exprStack n s
  have hbs : BelowState (popMany s.exprStack n undefinedExpr s).2.2.nextId
      (popMany s.exprStack n undefinedExpr s).2.2 :=
    belowState_genFrame hgf (belowState_mono hgn hb)
  obtain ⟨cm, cd, ce, ct, cp, cv, cr⟩ := hbs
  refine ⟨hgm hm, ⟨cm, cd, ?_, ct, cp, cv, cr⟩, ?_, hgn⟩
  · show Below _ (exsIds (popMany s.exprStack n undefinedExpr s).2.1)
    rw [below_exsIds_iff]
    intro e he
    exact below_mono hgn (below_exsIds_iff.mp be e (hrem e he))
  · rw [below_exsIds_iff]
    intro e he
    rcases hpop e he with h1 | h1
    · exact below_mono hgn (below_exsIds_iff.mp be e h1)
    · exact h1

theorem ruleInv_popPush (name : String) (n : Nat) {s : LoweringState}
    (h : RunInv s) :
    RunInv (pushApplication name (popMany s.exprStack n undefinedExpr s).1
      { (popMany s.exprStack n undefinedExpr s).2.2 with exprStack := (popMany s.exprStack n undefinedExpr s).2.1 }) := by
  obtain ⟨h1, h2, h3, h4⟩ := popManyExprs_inv n h
  exact pushApplication_inv name _ h1 h2 h3

theorem ruleInv_tuple (n : Nat) {s : LoweringState} (h : RunInv s) :
    RunInv (exitTuple n s) := ruleInv_popPush "Tup" n h

theorem ruleInv_plusMinus (isPlus : Bool) {s : LoweringState}
    (h : RunInv s) : RunInv (exitPlusMinus isPlus s) :=
  ruleInv_popPush (if isPlus then "iadd" else "isub") 2 h

theorem ruleInv_argList (n : Nat) {s : LoweringState} (h : RunInv s) :
    RunInv (exitArgList n s) := by
  obtain ⟨h1, h2, h3, h4⟩ := popManyExprs_inv n h
  obtain ⟨cm, cd, ce, ct, cp, cv, cr⟩ := h2
  unfold exitArgList
  dsimp only
  refine ⟨h1, cm, cd, ?_, ct, cp, cv, cr⟩
  intro i hi
  rw [show exsIds (QuintEx.app 0 "wrappedArgs"
      (popMany s.exprStack n undefinedExpr s).1 ::
      (popMany s.exprStack n undefinedExpr s).2.1) =
    (0 :: exsIds (popMany s.exprStack n undefinedExpr s).1) ++
      exsIds (popMany s.exprStack n undefinedExpr s).2.1 from rfl] at hi
  rcases List.mem_append.mp hi with h5 | h5
  · rcases List.mem_cons.mp h5 with h6 | h6
    · subst h6
      have h7 : (1 : Nat) ≤ (popMany s.exprStack n undefinedExpr s).2.2.nextId :=
        h1.2
      show (0 : Nat) < (popMany s.exprStack n undefinedExpr s).2.2.nextId
      omega
    · exact h3 i h6
  · exact ce i h5

theorem ruleInv_uminus {s : LoweringState} (h : RunInv s) :
    RunInv (exitUminus s) := by
  obtain ⟨hm, bm, bd, be, bt, bp, bv, br⟩ := h
  unfold exitUminus
  cases hst : s.exprStack with
  | nil => exact ⟨hm, bm, bd, be, bt, bp, bv, br⟩
  | cons a rest =>
      rw [hst] at be
      have ha : Below s.nextId (exIds a) := below_exsIds_iff.mp be a
        (List.mem_cons_self a rest)
      have hrest : Below s.nextId (exsIds rest) := by
        rw [below_exsIds_iff]
        intro e he
        exact below_exsIds_iff.mp be e (List.mem_cons_of_mem a he)
      refine pushApplication_inv "iuminus" [a] hm ⟨bm, bd, hrest, bt, bp, bv, br⟩ ?_
      rw [show exsIds [a] = exIds a ++ [] from rfl]
      intro i hi
      rcases List.mem_append.mp hi with h5 | h5
      · exact ha i h5
      · cases h5

theorem ruleInv_identOrHole (text : String) {s : LoweringState}
    (h : RunInv s) : RunInv (exitIdentOrHole text s) := by
  obtain ⟨hm, hb⟩ := h
  unfold exitIdentOrHole
  by_cases ht : text = "_" <;> simp only [ht, if_true, if_false] <;>
    exact ⟨hm, hb⟩

theorem mapShape_bump {s : LoweringState} (h : MapShape s)
    {t : LoweringState} (hn : t.nextId = s.nextId + 1)
    (hsm : t.sourceMap = s.sourceMap ++ [s.nextId]) : MapShape t := by
  obtain ⟨h1, h2⟩ := h
  refine ⟨?_, by omega⟩
  rw [hsm, hn, h1]
  exact range1_snoc h2

theorem ruleInv_parameter {s : LoweringState} (h : RunInv s) :
    RunInv (exitParameter s) := by
  obtain ⟨hm, bm, bd, be, bt, bp, bv, br⟩ := h
  unfold exitParameter
  cases hst : s.identOrHoleStack <;>
  · dsimp only [getId]
    refine ⟨mapShape_bump hm rfl rfl, below_mono (Nat.le_succ _) bm,
      below_mono (Nat.le_succ _) bd, below_mono (Nat.le_succ _) be,
      below_mono (Nat.le_succ _) bt, ?_, below_mono (Nat.le_succ _) bv,
      below_mono (Nat.le_succ _) br⟩
    intro i hi
    show i < s.nextId + 1
    simp [paramsIds] at hi
    rcases hi with h1 | h1
    · omega
    · have := bp i (by simpa [paramsIds] using h1)
      omega

theorem popExprD_inv {s : LoweringState} (h : MapShape s)
    (hb : BelowState s.nextId s) :
    MapShape (popExprOrUndefined s).2 ∧
    BelowState (popExprOrUndefined s).2.nextId (popExprOrUndefined s).2 ∧
    Below (popExprOrUndefined s).2.nextId (exIds (popExprOrUndefined s).1) ∧
    s.nextId ≤ (popExprOrUndefined s).2.nextId := by
  obtain ⟨bm, bd, be, bt, bp, bv, br⟩ := hb
  unfold popExprOrUndefined
  cases hst : s.exprStack with
  | nil =>
      obtain ⟨hgf, hgn, hgm, hgb⟩ := genOk_undefinedExpr s
      exact ⟨hgm h, belowState_genFrame hgf
        (belowState_mono hgn ⟨bm, bd, be, bt, bp, bv, br⟩), hgb, hgn⟩
  | cons e rest =>
      rw [hst] at be
      have he : Below s.nextId (exIds e) :=
        below_exsIds_iff.mp be e (List.mem_cons_self e rest)
      have hrest : Below s.nextId (exsIds rest) := by
        rw [below_exsIds_iff]
        intro x hx
        exact below_exsIds_iff.mp be x (List.mem_cons_of_mem e hx)
      exact ⟨h, ⟨bm, bd, hrest, bt, bp, bv, br⟩, he, le_refl _⟩

theorem wrappedArgsOf_sub {e : QuintEx} {args : List QuintEx}
    (h : wrappedArgsOf e = some args) : ∀ i ∈ exsIds args, i ∈ exIds e := by
  unfold wrappedArgsOf at h
  split at h
  · rename_i id args'
    cases h
    intro i hi
    simp [exIds]
    exact Or.inr hi
  · cases h

theorem ruleInv_operApp (name : String) (hasArgs : Bool) {s : LoweringState}
    (h : RunInv s) : RunInv (exitOperApp name hasArgs s) := by
  obtain ⟨hm, hb⟩ := h
  unfold exitOperApp
  cases hasArgs with
  | false =>
      exact pushApplication_inv name [] hm hb (below_nil _)
  | true =>
      dsimp only [if_true]
      obtain ⟨pm, pb, pe, pn⟩ := popExprD_inv hm hb
      cases hw : wrappedArgsOf (popExprOrUndefined s).1 with
      | some args =>
          refine pushApplication_inv name args pm pb ?_
          intro i hi
          exact pe i (wrappedArgsOf_sub hw i hi)
      | none => exact ⟨pm, pb⟩

theorem below_exsIds_pair {n : Nat} {a b : QuintEx}
    (ha : Below n (exIds a)) (hb : Below n (exIds b)) :
    Below n (exsIds [a, b]) := by
  intro i hi
  rw [show exsIds [a, b] = exIds a ++ (exIds b ++ []) from rfl] at hi
  rcases List.mem_append.mp hi with h1 | h1
  · exact ha i h1
  · rcases List.mem_append.mp h1 with h2 | h2
    · exact hb i h2
    · cases h2

theorem below_exsIds_one {n : Nat} {a : QuintEx} (ha : Below n (exIds a)) :
    Below n (exsIds [a]) := by
  intro i hi
  rw [show exsIds [a] = exIds a ++ [] from rfl] at hi
  rcases List.mem_append.mp hi with h1 | h1
  · exact ha i h1
  · cases h1

theorem ruleInv_dotCall (hasArgList : Bool) (name : String) (hasParen : Bool)
    {s : LoweringState} (h : RunInv s) :
    RunInv (exitDotCall hasArgList name hasParen s) := by
  obtain ⟨hm, hb⟩ := h
  unfold exitDotCall
  cases hasArgList with
  | false =>
      simp only [Bool.false_eq_true, if_false]
      obtain ⟨cm, cb, ce, cn⟩ := popExprD_inv hm hb
      cases hasParen with
      | true =>
          simp only [if_true]
          exact pushApplication_inv name _ cm cb (below_exsIds_one ce)
      | false =>
          simp only [Bool.false_eq_true, if_false]
          dsimp only [getId]
          cases hacc : tupleAccessor name with
          | some k =>
              refine pushApplication_inv "item" _
                (mapShape_bump cm rfl rfl)
                (belowState_mono (Nat.le_succ _) cb) ?_
              refine below_exsIds_pair (below_mono (Nat.le_succ _) ce) ?_
              intro i hi
              simp [exIds] at hi
              subst hi
              exact Nat.lt_succ_self _
          | none =>
              refine pushApplication_inv "field" _
                (mapShape_bump cm rfl rfl)
                (belowState_mono (Nat.le_succ _) cb) ?_
              refine below_exsIds_pair (below_mono (Nat.le_succ _) ce) ?_
              intro i hi
              simp [exIds] at hi
              subst hi
              exact Nat.lt_succ_self _
  | true =>
      simp only [if_true]
      obtain ⟨wm, wb, we, wn⟩ := popExprD_inv hm hb
      obtain ⟨cm, cb, ce, cn⟩ := popExprD_inv wm wb
      cases hasParen with
      | true =>
          simp only [if_true]
          cases hw : wrappedArgsOf (popExprOrUndefined s).1 with
          | some args =>
              refine pushApplication_inv name _ cm cb ?_
              intro i hi
              rw [show exsIds (_ :: args) = _ ++ exsIds args from rfl] at hi
              rcases List.mem_append.mp hi with h1 | h1
              · exact ce i h1
              · exact below_mono cn we i (wrappedArgsOf_sub hw i h1)
          | none => exact ⟨cm, cb⟩
      | false =>
          simp only [Bool.false_eq_true, if_false]
          dsimp only [getId]
          cases hacc : tupleAccessor name with
          | some k =>
              refine pushApplication_inv "item" _
                (mapShape_bump cm rfl rfl)
                (belowState_mono (Nat.le_succ _) cb) ?_
              refine below_exsIds_pair (below_mono (Nat.le_succ _) ce) ?_
              intro i hi
              simp [exIds] at hi
              subst hi
              exact Nat.lt_succ_self _
          | none =>
              refine pushApplication_inv "field" _
                (mapShape_bump cm rfl rfl)
                (belowState_mono (Nat.le_succ _) cb) ?_
              refine below_exsIds_pair (below_mono (Nat.le_succ _) ce) ?_
              intro i hi
              simp [exIds] at hi
              subst hi
              exact Nat.lt_succ_self _

theorem ruleInv_recElem (simpleId : Option String) {s : LoweringState}
    (h : RunInv s) : RunInv (exitRecElem simpleId s) := by
  obtain ⟨hm, bm, bd, be, bt, bp, bv, br⟩ := h
  have hhead : Below s.nextId (exIds (s.exprStack.headD .undef)) := by
    cases hst : s.exprStack with
    | nil => intro i hi; cases hi
    | cons e rest =>
        rw [hst] at be
        exact below_exsIds_iff.mp be e (List.mem_cons_self e rest)
  have htail : Below s.nextId (exsIds s.exprStack.tail) := by
    cases hst : s.exprStack with
    | nil => intro i hi; cases hi
    | cons e rest =>
        rw [hst] at be
        rw [below_exsIds_iff]
        intro x hx
        exact below_exsIds_iff.mp be x (List.mem_cons_of_mem e hx)
  unfold exitRecElem
  cases simpleId with
  | some n =>
      dsimp only [getId]
      refine ⟨mapShape_bump hm rfl rfl, below_mono (Nat.le_succ _) bm,
        below_mono (Nat.le_succ _) bd, ?_, below_mono (Nat.le_succ _) bt,
        below_mono (Nat.le_succ _) bp, below_mono (Nat.le_succ _) bv,
        below_mono (Nat.le_succ _) br⟩
      intro i hi
      show i < s.nextId + 1
      rw [show exsIds (QuintEx.app 0 "Tup"
          [.strL s.nextId n, s.exprStack.headD .undef] :: s.exprStack.tail) =
        (0 :: (s.nextId :: (exIds (s.exprStack.headD .undef) ++ []))) ++
          exsIds s.exprStack.tail from rfl] at hi
      rcases List.mem_append.mp hi with h1 | h1
      · rcases List.mem_cons.mp h1 with h2 | h2
        · omega
        · rcases List.mem_cons.mp h2 with h3 | h3
          · omega
          · rcases List.mem_append.mp h3 with h4 | h4
            · have := hhead i h4
              omega
            · cases h4
      · have := htail i h1
        omega
  | none =>
      refine ⟨hm, bm, bd, ?_, bt, bp, bv, br⟩
      intro i hi
      rw [show exsIds (QuintEx.app 0 "Tup" [s.exprStack.headD .undef] ::
          s.exprStack.tail) =
        (0 :: (exIds (s.exprStack.headD .undef) ++ [])) ++
          exsIds s.exprStack.tail from rfl] at hi
      show i < s.nextId
      rcases List.mem_append.mp hi with h1 | h1
      · rcases List.mem_cons.mp h1 with h2 | h2
        · subst h2
          have := hm.2
          omega
        · rcases List.mem_append.mp h2 with h3 | h3
          · exact hhead i h3
          · cases h3
      · exact htail i h1

theorem ruleInv_assume {s : LoweringState} (h : RunInv s) :
    RunInv (exitAssume s) := by
  obtain ⟨hm, bm, bd, be, bt, bp, bv, br⟩ := h
  have hhead : Below s.nextId (exIds (s.exprStack.headD .undef)) := by
    cases hst : s.exprStack with
    | nil => intro i hi; cases hi
    | cons e rest =>
        rw [hst] at be
        exact below_exsIds_iff.mp be e (List.mem_cons_self e rest)
  have htail : Below s.nextId (exsIds s.exprStack.tail) := by
    cases hst : s.exprStack with
    | nil => intro i hi; cases hi
    | cons e rest =>
        rw [hst] at be
        rw [below_exsIds_iff]
        intro x hx
        exact below_exsIds_iff.mp be x (List.mem_cons_of_mem e hx)
  unfold exitAssume
  dsimp only [getId]
  refine ⟨mapShape_bump hm rfl rfl, below_mono (Nat.le_succ _) bm, ?_,
    below_mono (Nat.le_succ _) htail, below_mono (Nat.le_succ _) bt,
    below_mono (Nat.le_succ _) bp, below_mono (Nat.le_succ _) bv,
    below_mono (Nat.le_succ _) br⟩
  intro i hi
  show i < s.nextId + 1
  rw [show declsIds (QuintDeclaration.assumeD s.nextId
      s.identOrHoleStack.head? (s.exprStack.headD .undef) ::
      s.declarationStack) =
    (s.nextId :: exIds (s.exprStack.headD .undef)) ++
      declsIds s.declarationStack from rfl] at hi
  rcases List.mem_append.mp hi with h1 | h1
  · rcases List.mem_cons.mp h1 with h2 | h2
    · omega
    · have := hhead i h2
      omega
  · have := bd i h1
    omega

theorem ruleInv_typeSimple (t : Option Nat → QuintType)
    (ht : ∀ j : Nat, tyIds (t (some j)) = [j]) {s : LoweringState} (hm : MapShape s)
    (hb : BelowState s.nextId s) :
    MapShape { (getId s).2 with typeStack := t (some (getId s).1) :: (getId s).2.typeStack } ∧
    BelowState (s.nextId + 1)
      { (getId s).2 with typeStack := t (some (getId s).1) :: (getId s).2.typeStack } := by
  obtain ⟨bm, bd, be, bt, bp, bv, br⟩ := hb
  refine ⟨mapShape_bump hm rfl rfl, below_mono (Nat.le_succ _) bm,
    below_mono (Nat.le_succ _) bd, below_mono (Nat.le_succ _) be, ?_,
    below_mono (Nat.le_succ _) bp, below_mono (Nat.le_succ _) bv,
    below_mono (Nat.le_succ _) br⟩
  intro i hi
  rw [show tysIds (t (some (getId s).1) :: (getId s).2.typeStack) =
    tyIds (t (some s.nextId)) ++ tysIds s.typeStack from rfl, ht] at hi
  rcases List.mem_append.mp hi with h1 | h1
  · rcases List.mem_cons.mp h1 with h2 | h2
    · omega
    · cases h2
  · have := bt i h1
    omega

theorem ruleInv_typeInt {s : LoweringState} (h : RunInv s) :
    RunInv (exitTypeInt s) := by
  obtain ⟨hm, hb⟩ := h
  exact ruleInv_typeSimple QuintType.tInt (fun j => rfl) hm hb

theorem ruleInv_typeBool {s : LoweringState} (h : RunInv s) :
    RunInv (exitTypeBool s) := by
  obtain ⟨hm, hb⟩ := h
  exact ruleInv_typeSimple QuintType.tBool (fun j => rfl) hm hb

theorem ruleInv_typeStr {s : LoweringState} (h : RunInv s) :
    RunInv (exitTypeStr s) := by
  obtain ⟨hm, hb⟩ := h
  exact ruleInv_typeSimple QuintType.tStr (fun j => rfl) hm hb

theorem ruleInv_typeConstOrVar (name : String) {s : LoweringState}
    (h : RunInv s) : RunInv (exitTypeConstOrVar name s) := by
  obtain ⟨hm, hb⟩ := h
  unfold exitTypeConstOrVar
  by_cases hl : isLowerFirst name <;> simp only [hl, if_true, if_false,
    Bool.false_eq_true]
  · exact ruleInv_typeSimple (fun j => QuintType.tVar j name)
      (fun j => rfl) hm hb
  · exact ruleInv_typeSimple (fun j => QuintType.tConst j name)
      (fun j => rfl) hm hb

theorem ruleInv_typeSumVariant (label : String) {s : LoweringState}
    (h : RunInv s) : RunInv (exitTypeSumVariant label s) := by
  obtain ⟨hm, bm, bd, be, bt, bp, bv, br⟩ := h
  unfold exitTypeSumVariant
  cases hst : s.typeStack with
  | cons t rest =>
      rw [hst] at bt
      have htv : Below s.nextId (tyIds t) :=
        below_tysIds_iff.mp bt t (List.mem_cons_self t rest)
      have hrest : Below s.nextId (tysIds rest) := by
        rw [below_tysIds_iff]
        intro x hx
        exact below_tysIds_iff.mp bt x (List.mem_cons_of_mem t hx)
      refine ⟨hm, bm, bd, be, hrest, bp, ?_, br⟩
      intro i hi
      rw [show fieldsIds (RowField.mk label t :: s.variantStack) =
        tyIds t ++ fieldsIds s.variantStack from rfl] at hi
      rcases List.mem_append.mp hi with h1 | h1
      · exact htv i h1
      · exact bv i h1
  | nil =>
      dsimp only [getId]
      refine ⟨mapShape_bump hm rfl rfl, below_mono (Nat.le_succ _) bm,
        below_mono (Nat.le_succ _) bd, below_mono (Nat.le_succ _) be,
        below_mono (Nat.le_succ _) bt, below_mono (Nat.le_succ _) bp, ?_,
        below_mono (Nat.le_succ _) br⟩
      intro i hi
      show i < s.nextId + 1
      rw [show fieldsIds (RowField.mk label (unitType s.nextId) ::
          s.variantStack) =
        (s.nextId :: ([] ++ [])) ++ fieldsIds s.variantStack from rfl] at hi
      rcases List.mem_append.mp hi with h1 | h1
      · rcases List.mem_cons.mp h1 with h2 | h2
        · omega
        · cases h2
      · have := bv i h1
        omega

theorem ruleInv_typeAbstract (name : String) {s : LoweringState}
    (h : RunInv s) : RunInv (exitTypeAbstractDef name s) := by
  obtain ⟨hm, bm, bd, be, bt, bp, bv, br⟩ := h
  unfold exitTypeAbstractDef
  dsimp only [getId]
  have key : ∀ errs, RunInv { s with nextId := s.nextId + 1, sourceMap := s.sourceMap ++ [s.nextId], errors := errs, declarationStack := .typedefD s.nextId name none :: s.declarationStack } := by
    intro errs
    refine ⟨mapShape_bump hm rfl rfl, below_mono (Nat.le_succ _) bm, ?_,
      below_mono (Nat.le_succ _) be, below_mono (Nat.le_succ _) bt,
      below_mono (Nat.le_succ _) bp, below_mono (Nat.le_succ _) bv,
      below_mono (Nat.le_succ _) br⟩
    intro i hi
    show i < s.nextId + 1
    rw [show declsIds (QuintDeclaration.typedefD s.nextId name none ::
        s.declarationStack) =
      (s.nextId :: []) ++ declsIds s.declarationStack from rfl] at hi
    rcases List.mem_append.mp hi with h1 | h1
    · rcases List.mem_cons.mp h1 with h2 | h2
      · omega
      · cases h2
    · have := bd i h1
      omega
  by_cases hl : isLowerFirst name <;>
    simp only [hl, if_true, if_false, Bool.false_eq_true] <;>
    exact key _

theorem ruleInv_typeAlias (name : String) {s : LoweringState}
    (h : RunInv s) : RunInv (exitTypeAliasDef name s) := by
  obtain ⟨hm, bm, bd, be, bt, bp, bv, br⟩ := h
  unfold exitTypeAliasDef
  cases hst : s.typeStack with
  | cons t rest =>
      rw [hst] at bt
      have htv : Below s.nextId (tyIds t) :=
        below_tysIds_iff.mp bt t (List.mem_cons_self t rest)
      have hrest : Below s.nextId (tysIds rest) := by
        rw [below_tysIds_iff]
        intro x hx
        exact below_tysIds_iff.mp bt x (List.mem_cons_of_mem t hx)
      dsimp only [getId]
      have key : ∀ errs, RunInv { s with nextId := s.nextId + 1, sourceMap := s.sourceMap ++ [s.nextId], errors := errs, typeStack := rest, declarationStack := .typedefD s.nextId name (some t) :: s.declarationStack } := by
        intro errs
        refine ⟨mapShape_bump hm rfl rfl, below_mono (Nat.le_succ _) bm, ?_,
          below_mono (Nat.le_succ _) be, below_mono (Nat.le_succ _) hrest,
          below_mono (Nat.le_succ _) bp, below_mono (Nat.le_succ _) bv,
          below_mono (Nat.le_succ _) br⟩
        intro i hi
        show i < s.nextId + 1
        rw [show declsIds (QuintDeclaration.typedefD s.nextId name
            (some t) :: s.declarationStack) =
          (s.nextId :: tyIds t) ++ declsIds s.declarationStack from rfl] at hi
        rcases List.mem_append.mp hi with h1 | h1
        · rcases List.mem_cons.mp h1 with h2 | h2
          · omega
          · have := htv i h2
            omega
        · have := bd i h1
          omega
      by_cases hl : isLowerFirst name <;>
        simp only [hl, if_true, if_false, Bool.false_eq_true] <;>
        exact key _
  | nil =>
      dsimp only [getId]
      have key : ∀ errs, RunInv { s with nextId := s.nextId + 1, sourceMap := s.sourceMap ++ [s.nextId], errors := errs, declarationStack := .typedefD s.nextId name none :: s.declarationStack } := by
        intro errs
        refine ⟨mapShape_bump hm rfl rfl, below_mono (Nat.le_succ _) bm, ?_,
          below_mono (Nat.le_succ _) be, below_mono (Nat.le_succ _) bt,
          below_mono (Nat.le_succ _) bp, below_mono (Nat.le_succ _) bv,
          below_mono (Nat.le_succ _) br⟩
        intro i hi
        show i < s.nextId + 1
        rw [show declsIds (QuintDeclaration.typedefD s.nextId name none ::
            s.declarationStack) =
          (s.nextId :: []) ++ declsIds s.declarationStack from rfl] at hi
        rcases List.mem_append.mp hi with h1 | h1
        · rcases List.mem_cons.mp h1 with h2 | h2
          · omega
          · cases h2
        · have := bd i h1
          omega
      by_cases hl : isLowerFirst name <;>
        simp only [hl, if_true, if_false, Bool.false_eq_true] <;>
        exact key _

theorem ruleInv_module (name : String) (docLines : List String)
    {s : LoweringState} (h : RunInv s) :
    RunInv (exitModule name docLines s) := by
  obtain ⟨hm, bm, bd, be, bt, bp, bv, br⟩ := h
  unfold exitModule
  have key : ∀ (ce' : Nat) (doc' : Option String),
      RunInv { s with nextId := s.nextId + 1, sourceMap := s.sourceMap ++ [s.nextId], consoleErrors := ce', declarationStack := [], modules := s.modules ++ [⟨s.nextId, name, s.declarationStack.reverse, doc'⟩] } := by
    intro ce' doc'
    refine ⟨mapShape_bump hm rfl rfl, ?_, ?_, below_mono (Nat.le_succ _) be,
      below_mono (Nat.le_succ _) bt, below_mono (Nat.le_succ _) bp,
      below_mono (Nat.le_succ _) bv, below_mono (Nat.le_succ _) br⟩
    · intro i hi
      show i < s.nextId + 1
      rw [modsIds_append] at hi
      rcases List.mem_append.mp hi with h1 | h1
      · have := bm i h1
        omega
      · rw [show modsIds [(⟨s.nextId, name, s.declarationStack.reverse,
            doc'⟩ : QuintModule)] =
          (s.nextId :: declsIds s.declarationStack.reverse) ++ [] from
          rfl] at h1
        rcases List.mem_append.mp h1 with h2 | h2
        · rcases List.mem_cons.mp h2 with h3 | h3
          · omega
          · have := bd i ((declsIds_reverse s.declarationStack i).mp h3)
            omega
        · cases h2
    · intro i hi
      cases hi
  by_cases hw : (!s.exprStack.isEmpty || !s.identOrStarStack.isEmpty ||
      !s.rowStack.isEmpty || !s.variantStack.isEmpty) = true <;>
    simp only [hw, if_true, if_false, Bool.false_eq_true] <;>
    dsimp only [getId] <;>
    by_cases hd : getDocText docLines ≠ "" <;>
    simp only [hd, if_true, if_false, ne_eq, not_true_eq_false,
      not_false_eq_true] <;>
    exact key _ _

theorem mem_exsIds {i : Nat} :
    ∀ {l : List QuintEx}, i ∈ exsIds l ↔ ∃ e ∈ l, i ∈ exIds e := by
  intro l
  induction l with
  | nil => simp [exsIds]
  | cons x l ih =>
      rw [show exsIds (x :: l) = exIds x ++ exsIds l from rfl]
      simp [ih]

theorem pairArgs_sub {e : QuintEx} {p : List QuintEx}
    (h : pairArgs e = some p) : ∀ i ∈ exsIds p, i ∈ exIds e := by
  unfold pairArgs at h
  split at h
  · rename_i id nm a b
    cases h
    intro i hi
    show i ∈ id :: exsIds [a, b]
    exact List.mem_cons_of_mem id hi
  · cases h

theorem firstSpreadBase_sub (spreads : List QuintEx) :
    ∀ i ∈ exIds (firstSpreadBase spreads), i ∈ exsIds spreads := by
  unfold firstSpreadBase
  split
  · rename_i id nm a rest tl
    intro i hi
    show i ∈ exIds (.app id nm (a :: rest)) ++ exsIds tl
    refine List.mem_append.mpr (Or.inl ?_)
    show i ∈ id :: (exIds a ++ exsIds rest)
    exact List.mem_cons_of_mem id (List.mem_append.mpr (Or.inl hi))
  · intro i hi
    cases hi

theorem foldl_with_inv :
    ∀ (ps : List (List QuintEx)) (acc : QuintEx × LoweringState),
      MapShape acc.2 →
      Below acc.2.nextId (exIds acc.1) →
      (∀ p ∈ ps, Below acc.2.nextId (exsIds p)) →
      MapShape (ps.foldl
        (fun acc p =>
          (QuintEx.app (getId acc.2).1 "with" (acc.1 :: p), (getId acc.2).2))
        acc).2 ∧
      acc.2.nextId ≤ (ps.foldl
        (fun acc p =>
          (QuintEx.app (getId acc.2).1 "with" (acc.1 :: p), (getId acc.2).2))
        acc).2.nextId ∧
      Below (ps.foldl
        (fun acc p =>
          (QuintEx.app (getId acc.2).1 "with" (acc.1 :: p), (getId acc.2).2))
        acc).2.nextId
        (exIds (ps.foldl
          (fun acc p =>
            (QuintEx.app (getId acc.2).1 "with" (acc.1 :: p), (getId acc.2).2))
          acc).1) := by
  intro ps
  induction ps with
  | nil =>
      intro acc hm hv hp
      exact ⟨hm, le_refl _, hv⟩
  | cons p rest ih =>
      intro acc hm hv hp
      rw [List.foldl_cons]
      have hv' : Below ((getId acc.2).2).nextId
          (exIds (QuintEx.app (getId acc.2).1 "with" (acc.1 :: p))) := by
        intro i hi
        show i < acc.2.nextId + 1
        rw [show exIds (QuintEx.app (getId acc.2).1 "with" (acc.1 :: p)) =
          acc.2.nextId :: (exIds acc.1 ++ exsIds p) from rfl] at hi
        rcases List.mem_cons.mp hi with h1 | h1
        · omega
        · rcases List.mem_append.mp h1 with h2 | h2
          · have := hv i h2
            omega
          · have := hp p (List.mem_cons_self p rest) i h2
            omega
      obtain ⟨m1, n1, b1⟩ := ih
        (QuintEx.app (getId acc.2).1 "with" (acc.1 :: p), (getId acc.2).2)
        (mapShape_getId hm) hv'
        (fun q hq => below_mono (Nat.le_succ _)
          (hp q (List.mem_cons_of_mem p hq)))
      exact ⟨m1, le_trans (Nat.le_succ _) n1, b1⟩

theorem ruleInv_record (n : Nat) {s : LoweringState} (h : RunInv s) :
    RunInv (exitRecord n s) := by
  obtain ⟨h1, h2, h3, h4⟩ := popManyExprs_inv n h
  unfold exitRecord
  dsimp only
  have hpairs : ∀ p ∈ (popMany s.exprStack n undefinedExpr s).1.filterMap
      pairArgs,
      Below (popMany s.exprStack n undefinedExpr s).2.2.nextId (exsIds p) := by
    intro p hp i hi
    obtain ⟨e, he, hpe⟩ := List.mem_filterMap.mp hp
    exact h3 i (mem_exsIds.mpr ⟨e, he, pairArgs_sub hpe i hi⟩)
  by_cases h0 : ((popMany s.exprStack n undefinedExpr s).1.filter
      isSpreadElem).length = 0
  · rw [if_pos h0]
    refine pushApplication_inv "Rec" _ h1 h2 ?_
    intro i hi
    obtain ⟨e, he, hie⟩ := mem_exsIds.mp hi
    obtain ⟨p, hpmem, hep⟩ := List.mem_flatten.mp he
    exact hpairs p hpmem i (mem_exsIds.mpr ⟨e, hep, hie⟩)
  · rw [if_neg h0]
    by_cases h5 : ((popMany s.exprStack n undefinedExpr s).1.filter
        isSpreadElem).length > 1
    · rw [if_pos h5]
      dsimp only [getId]
      exact ⟨mapShape_bump h1 rfl rfl, belowState_mono (Nat.le_succ _) h2⟩
    · rw [if_neg h5]
      have hbase : Below (popMany s.exprStack n undefinedExpr s).2.2.nextId
          (exIds (firstSpreadBase
            ((popMany s.exprStack n undefinedExpr s).1.filter
              isSpreadElem))) := by
        intro i hi
        have hmem := firstSpreadBase_sub _ i hi
        obtain ⟨e, he, hie⟩ := mem_exsIds.mp hmem
        exact h3 i (mem_exsIds.mpr ⟨e, (List.mem_filter.mp he).1, hie⟩)
      obtain ⟨mf, nf, bf⟩ := foldl_with_inv
        ((popMany s.exprStack n undefinedExpr s).1.filterMap pairArgs)
        (firstSpreadBase ((popMany s.exprStack n undefinedExpr s).1.filter
          isSpreadElem),
          { (popMany s.exprStack n undefinedExpr s).2.2 with exprStack := (popMany s.exprStack n undefinedExpr s).2.1 })
        h1 hbase hpairs
      have hfr := foldl_with_frame
        ((popMany s.exprStack n undefinedExpr s).1.filterMap pairArgs)
        (firstSpreadBase ((popMany s.exprStack n undefinedExpr s).1.filter
          isSpreadElem),
          { (popMany s.exprStack n undefinedExpr s).2.2 with exprStack := (popMany s.exprStack n undefinedExpr s).2.1 })
      obtain ⟨cm, cd, ce, ct, cp, cv, cr⟩ :=
        belowState_genFrame hfr (belowState_mono nf h2)
      refine ⟨mf, cm, cd, ?_, ct, cp, cv, cr⟩
      intro i hi
      rw [show exsIds (_ :: _) = exIds _ ++ exsIds _ from rfl] at hi
      rcases List.mem_append.mp hi with hA | hA
      · exact bf i hA
      · exact ce i hA

theorem popManyParams_inv (n : Nat) {s : LoweringState} (hm : MapShape s)
    (hb : BelowState s.nextId s) :
    MapShape { (popMany s.paramStack n undefinedParam s).2.2 with paramStack := (popMany s.paramStack n undefinedParam s).2.1 } ∧
    BelowState (popMany s.paramStack n undefinedParam s).2.2.nextId
      { (popMany s.paramStack n undefinedParam s).2.2 with paramStack := (popMany s.paramStack n undefinedParam s).2.1 } ∧
    (∀ p ∈ (popMany s.paramStack n undefinedParam s).1,
      p.id < (popMany s.paramStack n undefinedParam s).2.2.nextId) ∧
    s.nextId ≤ (popMany s.paramStack n undefinedParam s).2.2.nextId := by
  have bp := hb.2.2.2.2.1
  obtain ⟨hgf, hgn, hgm, hrem, hpop⟩ :=
    popMany_ok genOk_undefinedParam s.paramStack n s
  have hbs : BelowState (popMany s.paramStack n undefinedParam s).2.2.nextId
      (popMany s.paramStack n undefinedParam s).2.2 :=
    belowState_genFrame hgf (belowState_mono hgn hb)
  obtain ⟨cm, cd, ce, ct, cp, cv, cr⟩ := hbs
  refine ⟨hgm hm, ⟨cm, cd, ce, ct, ?_, cv, cr⟩, ?_, hgn⟩
  · show Below _ (paramsIds (popMany s.paramStack n undefinedParam s).2.1)
    rw [below_paramsIds_iff]
    intro p hp
    exact lt_of_lt_of_le
      (below_paramsIds_iff.mp bp p (hrem p hp)) hgn
  · intro p hp
    rcases hpop p hp with hA | hA
    · exact lt_of_lt_of_le (below_paramsIds_iff.mp bp p hA) hgn
    · exact hA p.id (List.mem_singleton_self _)

theorem foldl_letBindings_inv (fresh : String) :
    ∀ (l : List (Nat × QuintLambdaParameter)) (acc : QuintEx × LoweringState),
      MapShape acc.2 →
      Below acc.2.nextId (exIds acc.1) →
      (∀ ip ∈ l, ip.2.id < acc.2.nextId) →
      MapShape ((l.foldl
        (fun acc ip =>
          letBindingForTupleParam fresh acc.1 ip.2 ip.1 acc.2)
        acc).2) ∧
      acc.2.nextId ≤ ((l.foldl
        (fun acc ip =>
          letBindingForTupleParam fresh acc.1 ip.2 ip.1 acc.2)
        acc).2).nextId ∧
      Below ((l.foldl
        (fun acc ip =>
          letBindingForTupleParam fresh acc.1 ip.2 ip.1 acc.2)
        acc).2).nextId
        (exIds ((l.foldl
          (fun acc ip =>
            letBindingForTupleParam fresh acc.1 ip.2 ip.1 acc.2)
          acc).1)) := by
  intro l
  induction l with
  | nil =>
      intro acc hm hv hp
      exact ⟨hm, le_refl _, hv⟩
  | cons ip rest ih =>
      intro acc hm hv hp
      rw [List.foldl_cons]
      have hstep : letBindingForTupleParam fresh acc.1 ip.2 ip.1 acc.2 =
          (.letE acc.2.nextId
            (.mk ip.2.id ip.2.name .qpureval
              (.app (acc.2.nextId + 1) "item"
                [.name (acc.2.nextId + 2) fresh,
                 .intL (acc.2.nextId + 3) (Int.ofNat (ip.1 + 1))]) none)
            acc.1,
           { acc.2 with nextId := acc.2.nextId + 4, sourceMap := acc.2.sourceMap ++ [acc.2.nextId] ++ [acc.2.nextId + 1] ++ [acc.2.nextId + 2] ++ [acc.2.nextId + 3] }) := by
        rfl
      rw [hstep]
      have hm4 : MapShape { acc.2 with nextId := acc.2.nextId + 4, sourceMap := acc.2.sourceMap ++ [acc.2.nextId] ++ [acc.2.nextId + 1] ++ [acc.2.nextId + 2] ++ [acc.2.nextId + 3] } := by
        have h1 := mapShape_getId (mapShape_getId (mapShape_getId
          (mapShape_getId hm)))
        exact h1
      have hv' : Below (acc.2.nextId + 4)
          (exIds (QuintEx.letE acc.2.nextId
            (.mk ip.2.id ip.2.name .qpureval
              (.app (acc.2.nextId + 1) "item"
                [.name (acc.2.nextId + 2) fresh,
                 .intL (acc.2.nextId + 3) (Int.ofNat (ip.1 + 1))]) none)
            acc.1)) := by
        intro i hi
        rw [show exIds (QuintEx.letE acc.2.nextId
            (.mk ip.2.id ip.2.name .qpureval
              (.app (acc.2.nextId + 1) "item"
                [.name (acc.2.nextId + 2) fresh,
                 .intL (acc.2.nextId + 3) (Int.ofNat (ip.1 + 1))]) none)
            acc.1) =
          acc.2.nextId ::
            ((ip.2.id :: (((acc.2.nextId + 1) ::
              ([acc.2.nextId + 2] ++ ([acc.2.nextId + 3] ++ []))) ++ [])) ++
              exIds acc.1) from rfl] at hi
        have hpid := hp ip (List.mem_cons_self ip rest)
        rcases List.mem_cons.mp hi with hA | hA
        · omega
        · rcases List.mem_append.mp hA with hB | hB
          · rcases List.mem_cons.mp hB with hC | hC
            · omega
            · rcases List.mem_append.mp hC with hD | hD
              · rcases List.mem_cons.mp hD with hE | hE
                · omega
                · rcases List.mem_append.mp hE with hF | hF
                  · rcases List.mem_singleton.mp hF with hG
                    omega
                  · rcases List.mem_append.mp hF with hG | hG
                    · rcases List.mem_singleton.mp hG with hH
                      omega
                    · cases hG
              · cases hD
          · have := hv i hB
            omega
      have hrec := ih
        (.letE acc.2.nextId
          (.mk ip.2.id ip.2.name .qpureval
            (.app (acc.2.nextId + 1) "item"
              [.name (acc.2.nextId + 2) fresh,
               .intL (acc.2.nextId + 3) (Int.ofNat (ip.1 + 1))]) none)
          acc.1,
         { acc.2 with nextId := acc.2.nextId + 4, sourceMap := acc.2.sourceMap ++ [acc.2.nextId] ++ [acc.2.nextId + 1] ++ [acc.2.nextId + 2] ++ [acc.2.nextId + 3] })
        hm4 hv'
        (fun q hq => lt_of_lt_of_le
          (hp q (List.mem_cons_of_mem ip hq)) (Nat.le_add_right _ 4))
      exact ⟨hrec.1, le_trans (Nat.le_add_right _ 4) hrec.2.1, hrec.2.2⟩

theorem snd_mem_of_mem_enum {α : Type} {l : List α} {ip : Nat × α}
    (h : ip ∈ l.enum) : ip.2 ∈ l := by
  have := List.mem_map_of_mem Prod.snd h
  rwa [List.enum_map_snd] at this

theorem ruleInv_lambdaTupleSugar (n : Nat) {s : LoweringState}
    (h : RunInv s) : RunInv (exitLambdaTupleSugar n s) := by
  obtain ⟨hm, hb⟩ := h
  obtain ⟨pm, pb, pev, pn⟩ := popExprD_inv hm hb
  obtain ⟨qm, qb, qp, qn⟩ := popManyParams_inv n pm pb
  unfold exitLambdaTupleSugar
  dsimp only
  generalize hE : popExprOrUndefined s = pe at pm pb pev pn qm qb qp qn ⊢
  generalize hG : popMany pe.2.paramStack n undefinedParam pe.2 = g
    at qm qb qp qn ⊢
  have hm3 : MapShape (getId { g.2.2 with paramStack := g.2.1 }).2 :=
    mapShape_getId qm
  have hb3 : BelowState (g.2.2.nextId + 1)
      (getId { g.2.2 with paramStack := g.2.1 }).2 :=
    belowState_mono (Nat.le_succ _) qb
  obtain ⟨fm, fn, fb⟩ := foldl_letBindings_inv
    ("quintTupledLambdaParam" ++
      toString (getId { g.2.2 with paramStack := g.2.1 }).1)
    g.1.enum
    (pe.1, (getId { g.2.2 with paramStack := g.2.1 }).2)
    hm3
    (below_mono (le_trans qn (Nat.le_succ _)) pev)
    (fun ip hip => lt_of_lt_of_le (qp ip.2 (snd_mem_of_mem_enum hip))
      (Nat.le_succ _))
  have hfr := foldl_letBindings_frame
    ("quintTupledLambdaParam" ++
      toString (getId { g.2.2 with paramStack := g.2.1 }).1)
    g.1.enum pe.1 (getId { g.2.2 with paramStack := g.2.1 }).2
  have hbsF := belowState_genFrame hfr (belowState_mono fn hb3)
  obtain ⟨cm, cd, ce, ct, cp2, cv, cr⟩ :=
    belowState_mono (Nat.le_succ _) hbsF
  refine ⟨mapShape_getId fm, cm, cd, ?_, ct, cp2, cv, cr⟩
  intro i hi
  simp only [exsIds, exIds, paramsIds, List.map_cons, List.map_nil,
    List.cons_append, List.nil_append, List.mem_append, List.mem_cons,
    List.mem_singleton, List.not_mem_nil, or_false] at hi
  rcases hi with hA | hA | hA | hA
  · subst hA
    exact Nat.lt_succ_self _
  · subst hA
    exact lt_of_lt_of_le (Nat.lt_succ_self _)
      (le_trans fn (Nat.le_succ _))
  · exact lt_of_lt_of_le (fb i hA) (Nat.le_succ _)
  · exact ce i hA

theorem formMatchCases_inv :
    ∀ (l : List (QuintEx × CaseCtx)) (s : LoweringState),
      MapShape s →
      (∀ p ∈ l, Below s.nextId (exIds p.1)) →
      MapShape (formMatchCases l s).2 ∧
      s.nextId ≤ (formMatchCases l s).2.nextId ∧
      Below (formMatchCases l s).2.nextId (exsIds (formMatchCases l s).1) := by
  intro l
  induction l with
  | nil =>
      intro s hm hp
      exact ⟨hm, le_refl _, below_nil _⟩
  | cons p rest ih =>
      intro s hm hp
      obtain ⟨b, c⟩ := p
      rw [show formMatchCases ((b, c) :: rest) s =
        ((formMatchCase b c s).1 ++
          (formMatchCases rest (formMatchCase b c s).2).1,
         (formMatchCases rest (formMatchCase b c s).2).2) from rfl]
      have hm3 : MapShape (formMatchCase b c s).2 :=
        mapShape_getId (mapShape_getId (mapShape_getId hm))
      have hle3 : s.nextId ≤ (formMatchCase b c s).2.nextId := by
        show s.nextId ≤ s.nextId + 3
        omega
      have hp3 : ∀ q ∈ rest,
          Below (formMatchCase b c s).2.nextId (exIds q.1) :=
        fun q hq => below_mono hle3 (hp q (List.mem_cons_of_mem _ hq))
      obtain ⟨m1, n1, b1⟩ := ih (formMatchCase b c s).2 hm3 hp3
      refine ⟨m1, le_trans hle3 n1, ?_⟩
      intro i hi
      rw [exsIds_append] at hi
      rcases List.mem_append.mp hi with hA | hA
      · have hf : Below (formMatchCase b c s).2.nextId
            (exsIds (formMatchCase b c s).1) := by
          intro j hj
          show j < s.nextId + 3
          simp only [formMatchCase, getId, exsIds, exIds, paramsIds,
            List.map_cons, List.map_nil, List.cons_append, List.nil_append,
            List.mem_cons, List.mem_append, List.not_mem_nil, or_false] at hj
          rcases hj with h1 | h1 | h1 | h1
          · omega
          · omega
          · omega
          · have := hp (b, c) (List.mem_cons_self _ _) j h1
            omega
        exact lt_of_lt_of_le (hf i hA) n1
      · exact b1 i hA

theorem ruleInv_matchSum (cases : List CaseCtx) {s : LoweringState}
    (h : RunInv s) : RunInv (exitMatchSumExpr cases s) := by
  obtain ⟨hm, hb⟩ := h
  have h1 : RunInv (getId s).2 :=
    ⟨mapShape_getId hm, belowState_mono (Nat.le_succ _) hb⟩
  obtain ⟨q1, q2, q3, q4⟩ := popManyExprs_inv (cases.length + 1) h1
  unfold exitMatchSumExpr
  dsimp only
  generalize hG : popMany (getId s).2.exprStack (cases.length + 1)
    undefinedExpr (getId s).2 = g at q1 q2 q3 q4 ⊢
  have hhead : Below g.2.2.nextId (exIds (g.1.headD .undef)) := by
    cases hst : g.1 with
    | nil =>
        intro i hi
        cases hi
    | cons e rest =>
        rw [hst] at q3
        exact below_exsIds_iff.mp q3 e (List.mem_cons_self e rest)
  have hbzip : ∀ p ∈ g.1.tail.zip cases,
      Below g.2.2.nextId (exIds p.1) := by
    intro p hp
    exact below_exsIds_iff.mp q3 p.1
      ((List.tail_sublist g.1).subset (List.of_mem_zip hp).1)
  obtain ⟨fm, fn, fb⟩ := formMatchCases_inv (g.1.tail.zip cases)
    { g.2.2 with exprStack := g.2.1 } q1 hbzip
  have hfr := formMatchCases_frame (g.1.tail.zip cases)
    { g.2.2 with exprStack := g.2.1 }
  obtain ⟨cm, cd, ce, ct, cp, cv, cr⟩ :=
    belowState_genFrame hfr (belowState_mono fn q2)
  refine ⟨fm, cm, cd, ?_, ct, cp, cv, cr⟩
  intro i hi
  simp only [exsIds, exIds, List.mem_cons, List.mem_append] at hi
  rcases hi with (hA | hA | hA) | hA
  · subst hA
    exact lt_of_lt_of_le (Nat.lt_succ_self _) (le_trans q4 fn)
  · exact lt_of_lt_of_le (hhead i hA) fn
  · exact fb i hA
  · exact ce i hA

theorem popManyVariants_inv (n : Nat) {s : LoweringState} (hm : MapShape s)
    (hb : BelowState s.nextId s) :
    MapShape { (popMany s.variantStack n undefinedVariant s).2.2 with variantStack := (popMany s.variantStack n undefinedVariant s).2.1 } ∧
    BelowState (popMany s.variantStack n undefinedVariant s).2.2.nextId
      { (popMany s.variantStack n undefinedVariant s).2.2 with variantStack := (popMany s.variantStack n undefinedVariant s).2.1 } ∧
    (∀ f ∈ (popMany s.variantStack n undefinedVariant s).1,
      Below (popMany s.variantStack n undefinedVariant s).2.2.nextId
        (tyIds f.fieldType)) ∧
    s.nextId ≤ (popMany s.variantStack n undefinedVariant s).2.2.nextId := by
  have bv := hb.2.2.2.2.2.1
  obtain ⟨hgf, hgn, hgm, hrem, hpop⟩ :=
    popMany_ok genOk_undefinedVariant s.variantStack n s
  have hbs : BelowState
      (popMany s.variantStack n undefinedVariant s).2.2.nextId
      (popMany s.variantStack n undefinedVariant s).2.2 :=
    belowState_genFrame hgf (belowState_mono hgn hb)
  obtain ⟨cm, cd, ce, ct, cp, cv, cr⟩ := hbs
  refine ⟨hgm hm, ⟨cm, cd, ce, ct, cp, ?_, cr⟩, ?_, hgn⟩
  · show Below _ (fieldsIds (popMany s.variantStack n undefinedVariant s).2.1)
    rw [below_fieldsIds_iff]
    intro f hf
    exact below_mono hgn (below_fieldsIds_iff.mp bv f (hrem f hf))
  · intro f hf
    rcases hpop f hf with hA | hA
    · exact below_mono hgn (below_fieldsIds_iff.mp bv f hA)
    · exact hA

theorem declsIds_map_opdefD (l : List QuintOpDef) :
    ∀ i, i ∈ declsIds (l.map QuintDeclaration.opdefD) ↔
      ∃ d ∈ l, i ∈ opdIds d := by
  induction l with
  | nil => intro i; simp [declsIds]
  | cons d l ih =>
      intro i
      rw [List.map_cons,
        show declsIds (QuintDeclaration.opdefD d :: l.map
          QuintDeclaration.opdefD) =
          opdIds d ++ declsIds (l.map QuintDeclaration.opdefD) from rfl]
      simp [ih]

theorem genConstructors_inv (tn : QuintType) :
    ∀ (fs : List RowField) (s : LoweringState),
      MapShape s →
      Below s.nextId (tyIds tn) →
      (∀ f ∈ fs, Below s.nextId (tyIds f.fieldType)) →
      MapShape (genConstructors tn fs s).2 ∧
      s.nextId ≤ (genConstructors tn fs s).2.nextId ∧
      ∀ d ∈ (genConstructors tn fs s).1,
        Below (genConstructors tn fs s).2.nextId (opdIds d) := by
  intro fs
  induction fs with
  | nil =>
      intro s hm ht hf
      exact ⟨hm, le_refl _, fun d hd => by cases hd⟩
  | cons f fs ih =>
      obtain ⟨label, ft⟩ := f
      intro s hm ht hf
      have hft : Below s.nextId (tyIds ft) :=
        hf (.mk label ft) (List.mem_cons_self _ _)
      have hf' : ∀ q ∈ fs, Below (s.nextId + 4) (tyIds q.fieldType) :=
        fun q hq => below_mono (by omega) (hf q (List.mem_cons_of_mem _ hq))
      have hf'' : ∀ q ∈ fs, Below (s.nextId + 6) (tyIds q.fieldType) :=
        fun q hq => below_mono (by omega) (hf q (List.mem_cons_of_mem _ hq))
      by_cases hu : isUnitType ft = true
      · have hstep : genConstructors tn (.mk label ft :: fs) s =
            ((.mk (s.nextId + 3) label .qval
                (.app (s.nextId + 2) "variant"
                  [.strL s.nextId label, .app (s.nextId + 1) "Rec" []])
                (some tn)) ::
              (genConstructors tn fs { s with nextId := s.nextId + 4, sourceMap := s.sourceMap ++ [s.nextId] ++ [s.nextId + 1] ++ [s.nextId + 2] ++ [s.nextId + 3] }).1,
             (genConstructors tn fs { s with nextId := s.nextId + 4, sourceMap := s.sourceMap ++ [s.nextId] ++ [s.nextId + 1] ++ [s.nextId + 2] ++ [s.nextId + 3] }).2) := by
          simp only [genConstructors, getId, hu, if_true]
        rw [hstep]
        dsimp only
        have hm4 : MapShape { s with nextId := s.nextId + 4, sourceMap := s.sourceMap ++ [s.nextId] ++ [s.nextId + 1] ++ [s.nextId + 2] ++ [s.nextId + 3] } :=
          mapShape_getId (mapShape_getId (mapShape_getId (mapShape_getId hm)))
        obtain ⟨m1, n1, b1⟩ := ih
          { s with nextId := s.nextId + 4, sourceMap := s.sourceMap ++ [s.nextId] ++ [s.nextId + 1] ++ [s.nextId + 2] ++ [s.nextId + 3] }
          hm4 (below_mono (Nat.le_add_right _ 4) ht) hf'
        have hn4 : s.nextId + 4 ≤ (genConstructors tn fs { s with nextId := s.nextId + 4, sourceMap := s.sourceMap ++ [s.nextId] ++ [s.nextId + 1] ++ [s.nextId + 2] ++ [s.nextId + 3] }).2.nextId := n1
        refine ⟨m1, le_trans (Nat.le_add_right _ 4) n1, ?_⟩
        intro d hd
        rcases List.mem_cons.mp hd with hd | hd
        · subst hd
          intro j hj
          simp only [opdIds, exIds, exsIds, otyIds, List.mem_cons,
            List.mem_append, List.cons_append, List.nil_append,
            List.not_mem_nil, or_false] at hj
          rcases hj with h1 | h1 | h1 | h1 | h1
          · omega
          · omega
          · omega
          · omega
          · have := ht j h1
            omega
        · exact b1 d hd
      · rw [Bool.not_eq_true] at hu
        have hstep : genConstructors tn (.mk label ft :: fs) s =
            ((.mk (s.nextId + 5) label .qdef
                (.lam (s.nextId + 4) [⟨s.nextId + 1, "__" ++ label ++ "Param"⟩]
                  .qdef
                  (.app (s.nextId + 3) "variant"
                    [.strL s.nextId label,
                     .name (s.nextId + 2) ("__" ++ label ++ "Param")]))
                (some (.tOper none [ft] tn))) ::
              (genConstructors tn fs { s with nextId := s.nextId + 6, sourceMap := s.sourceMap ++ [s.nextId] ++ [s.nextId + 1] ++ [s.nextId + 2] ++ [s.nextId + 3] ++ [s.nextId + 4] ++ [s.nextId + 5] }).1,
             (genConstructors tn fs { s with nextId := s.nextId + 6, sourceMap := s.sourceMap ++ [s.nextId] ++ [s.nextId + 1] ++ [s.nextId + 2] ++ [s.nextId + 3] ++ [s.nextId + 4] ++ [s.nextId + 5] }).2) := by
          simp only [genConstructors, getId, hu, Bool.false_eq_true, if_false]
        rw [hstep]
        dsimp only
        have hm6 : MapShape { s with nextId := s.nextId + 6, sourceMap := s.sourceMap ++ [s.nextId] ++ [s.nextId + 1] ++ [s.nextId + 2] ++ [s.nextId + 3] ++ [s.nextId + 4] ++ [s.nextId + 5] } :=
          mapShape_getId (mapShape_getId (mapShape_getId (mapShape_getId
            (mapShape_getId (mapShape_getId hm)))))
        obtain ⟨m1, n1, b1⟩ := ih
          { s with nextId := s.nextId + 6, sourceMap := s.sourceMap ++ [s.nextId] ++ [s.nextId + 1] ++ [s.nextId + 2] ++ [s.nextId + 3] ++ [s.nextId + 4] ++ [s.nextId + 5] }
          hm6 (below_mono (Nat.le_add_right _ 6) ht) hf''
        have hn6 : s.nextId + 6 ≤ (genConstructors tn fs { s with nextId := s.nextId + 6, sourceMap := s.sourceMap ++ [s.nextId] ++ [s.nextId + 1] ++ [s.nextId + 2] ++ [s.nextId + 3] ++ [s.nextId + 4] ++ [s.nextId + 5] }).2.nextId := n1
        refine ⟨m1, le_trans (Nat.le_add_right _ 6) n1, ?_⟩
        intro d hd
        rcases List.mem_cons.mp hd with hd | hd
        · subst hd
          intro j hj
          simp only [opdIds, exIds, exsIds, otyIds, tyIds, tysIds,
            paramsIds, List.map_cons, List.map_nil, Option.toList_none,
            List.mem_cons, List.mem_append, List.cons_append,
            List.nil_append, List.not_mem_nil, or_false,
            List.mem_singleton] at hj
          rcases hj with h1 | h1 | h1 | h1 | h1 | h1 | h1 | h1
          · omega
          · omega
          · omega
          · omega
          · omega
          · omega
          · have := hft j h1
            omega
          · have := ht j h1
            omega
        · exact b1 d hd

theorem ruleInv_typeSumDef (name : String) (nVariants : Nat)
    {s : LoweringState} (h : RunInv s) :
    RunInv (exitTypeSumDef name nVariants s) := by
  obtain ⟨hm, hb⟩ := h
  have h1m : MapShape (getId s).2 := mapShape_getId hm
  have h1b : BelowState (getId s).2.nextId (getId s).2 :=
    belowState_mono (Nat.le_succ _) hb
  obtain ⟨q1, q2, q3, q4⟩ :=
    popManyVariants_inv (getId s).2.variantStack.length h1m h1b
  unfold exitTypeSumDef
  dsimp only
  generalize hG : popMany (getId s).2.variantStack
    (getId s).2.variantStack.length undefinedVariant (getId s).2 = g
    at q1 q2 q3 q4 ⊢
  have htn : Below g.2.2.nextId
      (tyIds (QuintType.tConst (some (getId s).1) name)) := by
    intro i hi
    rcases List.mem_singleton.mp hi with h1
    subst h1
    exact lt_of_lt_of_le (Nat.lt_succ_self _) q4
  have hfields : ∀ f ∈ g.1.take nVariants,
      Below g.2.2.nextId (tyIds f.fieldType) :=
    fun f hf => q3 f (List.mem_of_mem_take hf)
  obtain ⟨gm, gn, gb⟩ := genConstructors_inv
    (QuintType.tConst (some (getId s).1) name) (g.1.take nVariants)
    { g.2.2 with variantStack := g.2.1 } q1 htn hfields
  have hfr := genConstructors_frame
    (QuintType.tConst (some (getId s).1) name) (g.1.take nVariants)
    { g.2.2 with variantStack := g.2.1 }
  obtain ⟨cm, cd, ce, ct, cp, cv, cr⟩ :=
    belowState_genFrame hfr (belowState_mono gn q2)
  refine ⟨gm, cm, ?_, ce, ct, cp, cv, cr⟩
  intro i hi
  rw [declsIds_append] at hi
  rcases List.mem_append.mp hi with hA | hA
  · have hA' := (declsIds_reverse _ i).mp hA
    obtain ⟨d, hd, hid⟩ := (declsIds_map_opdefD _ i).mp hA'
    exact gb d hd i hid
  · simp only [declsIds, declIds, otyIds, tyIds, rowIds,
      Option.toList_some, List.mem_cons, List.mem_append, List.append_nil,
      List.nil_append, List.cons_append, List.mem_singleton,
      List.not_mem_nil, or_false] at hA
    rcases hA with h1 | h1 | h1 | h1
    · subst h1
      exact lt_of_lt_of_le (lt_of_lt_of_le (Nat.lt_succ_self _) q4) gn
    · subst h1
      exact lt_of_lt_of_le (lt_of_lt_of_le (Nat.lt_succ_self _) q4) gn
    · have hbv : Below g.2.2.nextId (fieldsIds g.1) := by
        rw [below_fieldsIds_iff]
        exact q3
      exact lt_of_lt_of_le (hbv i h1) gn
    · exact cd i h1

theorem step_inv (r : Rule) {s : LoweringState} (h : RunInv s) :
    RunInv (step r s) := by
  cases r with
  | rLit l => exact ruleInv_literal l h
  | rArgList n => exact ruleInv_argList n h
  | rOperApp name hasArgs => exact ruleInv_operApp name hasArgs h
  | rDotCall a b c => exact ruleInv_dotCall a b c h
  | rUminus => exact ruleInv_uminus h
  | rPlusMinus p => exact ruleInv_plusMinus p h
  | rTuple n => exact ruleInv_tuple n h
  | rRecElem f => exact ruleInv_recElem f h
  | rRecord n => exact ruleInv_record n h
  | rIdentOrHole t => exact ruleInv_identOrHole t h
  | rParameter => exact ruleInv_parameter h
  | rLambdaTupleSugar n => exact ruleInv_lambdaTupleSugar n h
  | rAssume => exact ruleInv_assume h
  | rMatchSum cs => exact ruleInv_matchSum cs h
  | rTypeInt => exact ruleInv_typeInt h
  | rTypeBool => exact ruleInv_typeBool h
  | rTypeStr => exact ruleInv_typeStr h
  | rTypeConstOrVar n => exact ruleInv_typeConstOrVar n h
  | rTypeSumVariant l => exact ruleInv_typeSumVariant l h
  | rTypeSumDef n k => exact ruleInv_typeSumDef n k h
  | rTypeAbstractDef n => exact ruleInv_typeAbstract n h
  | rTypeAliasDef n => exact ruleInv_typeAlias n h
  | rModule n d => exact ruleInv_module n d h

theorem runRules_inv (rs : List Rule) {s : LoweringState} (h : RunInv s) :
    RunInv (runRules rs s) := by
  induction rs generalizing s with
  | nil => exact h
  | cons r rs ih => exact ih (step_inv r h)

theorem runInv_initState : RunInv initState := by
  refine ⟨⟨rfl, le_refl _⟩, ?_, ?_, ?_, ?_, ?_, ?_, ?_⟩ <;>
    intro i hi <;> cases hi

/-- Claim C8 (amended): over any whole lowering run from a fresh state,
no identifier is issued twice (the source map, which receives every
identifier at the moment it is issued, is duplicate-free), and every
NONZERO identifier appearing anywhere in the output module trees has
exactly one source-map entry; the transient id-0 wrapper nodes can,
however, leak into the output tree (see the counterexample), and id 0
never has a source-map entry. -/
theorem c8_id_uniqueness (ms : List (String × List String × List PDecl)) :
    (runRules (eventsRun ms) initState).sourceMap.Nodup ∧
    (∀ i ∈ modsIds (runRules (eventsRun ms) initState).modules,
      i ≠ 0 → (runRules (eventsRun ms) initState).sourceMap.count i = 1) ∧
    0 ∉ (runRules (eventsRun ms) initState).sourceMap := by
  obtain ⟨⟨hsm, hn⟩, hbel⟩ := runRules_inv (eventsRun ms) runInv_initState
  have bm := hbel.1
  refine ⟨?_, ?_, ?_⟩
  · rw [hsm]
    exact List.nodup_range' _ _
  · intro i hi hne
    have hlt := bm i hi
    have hge : 1 ≤ i := Nat.one_le_iff_ne_zero.mpr hne
    have hmem : i ∈ (runRules (eventsRun ms) initState).sourceMap := by
      rw [hsm, List.mem_range'_1]
      omega
    have hnd : (runRules (eventsRun ms) initState).sourceMap.Nodup := by
      rw [hsm]
      exact List.nodup_range' _ _
    exact List.count_eq_one_of_mem hnd hmem
  · rw [hsm, List.mem_range'_1]
    omega
